import Mathlib

/-!
Verification development for a C-style 8-bit bit-manipulation expression
evaluator (tokenizer, recursive-descent parser/evaluator, answer checker)
and its lenient sibling, an incremental expression analyzer used for live
display.  The definitions below are a shallow embedding of the TypeScript
source: JavaScript strings are modelled as `List Char`, JavaScript numbers
as `Nat` with explicit `% 256` where the source masks with `& 0xFF`
(and `% 2^32`-style reasoning where 32-bit semantics of `<<`/`>>` matter),
`Record<string, number>` as `String → Option Nat`, and thrown exceptions
as `Except String`.  The recursive-descent parser and the recursive parts
of the display analyzer take an explicit fuel argument to express the
(in one case only conjectural) termination of the source's recursion.
-/

/-! ## List helpers -/

theorem tail_length_le (l : List Char) : l.tail.length ≤ l.length := by
  cases l <;> simp

theorem dropWhile_length_le (p : Char → Bool) (l : List Char) :
    (l.dropWhile p).length ≤ l.length := by
  induction l with
  | nil => simp [List.dropWhile]
  | cons c cs ih =>
    simp only [List.dropWhile]
    split
    · exact Nat.le_trans ih (Nat.le_succ _)
    · exact Nat.le_refl _

/-! ## Character classes (JS regex character tests, ASCII range) -/

/-- Models the JS `/\s/` test (ASCII whitespace). -/
def isWsChar (c : Char) : Bool :=
  c = ' ' || c = '\t' || c = '\n' || c = '\r' || c = '\x0b' || c = '\x0c'

/-- Models `/[a-zA-Z_]/`. -/
def isIdentStartChar (c : Char) : Bool :=
  c.isAlpha || c = '_'

/-- Models `/[a-zA-Z0-9_]/`. -/
def isIdentChar (c : Char) : Bool :=
  c.isAlphanum || c = '_'

/-- Models `/[0-9a-fA-F]/`. -/
def isHexDigitCh (c : Char) : Bool :=
  c.isDigit || ('a' ≤ c && c ≤ 'f') || ('A' ≤ c && c ≤ 'F')

/-- Models `/[01]/`. -/
def isBinDigitCh (c : Char) : Bool :=
  c = '0' || c = '1'

/-- Numeric value of a decimal digit character. -/
def digitVal (c : Char) : Nat := c.toNat - 48

/-- Numeric value of a hex digit character. -/
def hexVal (c : Char) : Nat :=
  if c.isDigit then c.toNat - 48
  else if 'a' ≤ c && c ≤ 'f' then c.toNat - 87
  else c.toNat - 55

/-- Value of a digit string in the given base, as `parseInt` computes it
over the digits it accepts.  An empty digit list yields 0, matching
`NaN & 0xFF = 0` after the tokenizer's masking. -/
def foldDigits (base : Nat) (f : Char → Nat) (l : List Char) : Nat :=
  l.foldl (fun a c => a * base + f c) 0

/-- Models JS `String.prototype.trim` at the front: drop leading whitespace. -/
def dropLeadWs (l : List Char) : List Char := l.dropWhile isWsChar

/-- Drop trailing whitespace. -/
def dropTrailWs (l : List Char) : List Char := (l.reverse.dropWhile isWsChar).reverse

/-- Models JS `String.prototype.trim`. -/
def jsTrim (l : List Char) : List Char := dropTrailWs (dropLeadWs l)

/-! ## JS 8-bit-masked operators

In the source every value reaching a binary operator lies in [0,255]
(numeric literals are masked at tokenization time and every operation
masks its result), so the 32-bit JS operators agree with the models
below: `(a << b) & 0xFF = (a * 2^(b mod 32)) mod 256` and
`(a >> b) & 0xFF = (a / 2^(b mod 32)) mod 256` for `0 ≤ a < 2^24`,
because JS takes the shift count modulo 32, and `(~a) & 0xFF = 255 - a`
for `0 ≤ a ≤ 255`. -/

/-- Models `(a << b) & 0xFF` of JS. -/
def jsShl8 (a b : Nat) : Nat := (a * 2 ^ (b % 32)) % 256

/-- Models `(a >> b) & 0xFF` of JS. -/
def jsShr8 (a b : Nat) : Nat := (a / 2 ^ (b % 32)) % 256

/-- Models `(~a) & 0xFF` of JS. -/
def jsNot8 (a : Nat) : Nat := 255 - a % 256

/-! ## Symbol table (src/data/atmega2560.ts) -/

namespace Atmega

/-- The 11 supported port letters (A–L excluding I). -/
def portNames : List String := ["A", "B", "C", "D", "E", "F", "G", "H", "J", "K", "L"]

/-- Per-port bit-name entries, in the source's per-index insertion order:
`P<p><i> = i`, `DD<p><i> = i`, `PIN<p><i> = i` for `i` in 0..7. -/
def portBitEntries (p : String) : List (String × Nat) :=
  (List.range 8).flatMap (fun i =>
    [("P" ++ p ++ toString i, i), ("DD" ++ p ++ toString i, i), ("PIN" ++ p ++ toString i, i)])

/-- All systematic port bit names (the `bitNameMap` of the source). -/
def bitNameMapEntries : List (String × Nat) := portNames.flatMap portBitEntries

/-- The curated `namedRegisterBits` table flattened in source order. -/
def namedRegisterBitsEntries : List (String × Nat) :=
  [("MPCM0", 0), ("U2X0", 1), ("UPE0", 2), ("DOR0", 3), ("FE0", 4), ("UDRE0", 5),
   ("TXC0", 6), ("RXC0", 7),
   ("TXB80", 0), ("RXB80", 1), ("UCSZ02", 2), ("TXEN0", 3), ("RXEN0", 4), ("UDRIE0", 5),
   ("TXCIE0", 6), ("RXCIE0", 7),
   ("UCPOL0", 0), ("UCSZ00", 1), ("UCSZ01", 2), ("USBS0", 3), ("UPM00", 4), ("UPM01", 5),
   ("UMSEL00", 6), ("UMSEL01", 7),
   ("WGM00", 0), ("WGM01", 1), ("COM0B0", 4), ("COM0B1", 5), ("COM0A0", 6), ("COM0A1", 7),
   ("CS00", 0), ("CS01", 1), ("CS02", 2), ("WGM02", 3), ("FOC0B", 6), ("FOC0A", 7),
   ("WGM10", 0), ("WGM11", 1), ("COM1C0", 2), ("COM1C1", 3), ("COM1B0", 4), ("COM1B1", 5),
   ("COM1A0", 6), ("COM1A1", 7),
   ("CS10", 0), ("CS11", 1), ("CS12", 2), ("WGM12", 3), ("WGM13", 4), ("ICES1", 6), ("ICNC1", 7),
   ("WGM30", 0), ("WGM31", 1), ("COM3C0", 2), ("COM3C1", 3), ("COM3B0", 4), ("COM3B1", 5),
   ("COM3A0", 6), ("COM3A1", 7),
   ("CS30", 0), ("CS31", 1), ("CS32", 2), ("WGM32", 3), ("WGM33", 4), ("ICES3", 6), ("ICNC3", 7),
   ("MUX0", 0), ("MUX1", 1), ("MUX2", 2), ("MUX3", 3), ("MUX4", 4), ("ADLAR", 5),
   ("REFS0", 6), ("REFS1", 7),
   ("ADPS0", 0), ("ADPS1", 1), ("ADPS2", 2), ("ADIE", 3), ("ADIF", 4), ("ADATE", 5),
   ("ADSC", 6), ("ADEN", 7),
   ("SPR0", 0), ("SPR1", 1), ("CPHA", 2), ("CPOL", 3), ("MSTR", 4), ("DORD", 5),
   ("SPE", 6), ("SPIE", 7),
   ("ISC00", 0), ("ISC01", 1), ("ISC10", 2), ("ISC11", 3), ("ISC20", 4), ("ISC21", 5),
   ("ISC30", 6), ("ISC31", 7),
   ("INT0", 0), ("INT1", 1), ("INT2", 2), ("INT3", 3), ("INT4", 4), ("INT5", 5),
   ("INT6", 6), ("INT7", 7)]

/-- Entries of the flattened `allNamedBits` object: the spread of
`bitNameMap` followed by the overlay of every curated table. -/
def allNamedBitsEntries : List (String × Nat) :=
  bitNameMapEntries ++ namedRegisterBitsEntries

/-- JS object lookup over an assignment sequence: the last write wins. -/
def jsLookup (entries : List (String × Nat)) (k : String) : Option Nat :=
  (entries.reverse.find? (fun e => e.1 == k)).map (·.2)

/-- Models membership/lookup in the `allNamedBits` object. -/
def allNamedBits (k : String) : Option Nat := jsLookup allNamedBitsEntries k

end Atmega

/-! ## Tokenizer (src/engine/evaluator.ts, `tokenize`) -/

namespace Ev

inductive Token where
  | NUMBER (value : String) (numValue : Nat)
  | IDENTIFIER (value : String)
  | LPAREN
  | RPAREN
  | OR
  | AND
  | XOR
  | NOT
  | LSHIFT
  | RSHIFT
  | ASSIGN
  | OR_ASSIGN
  | AND_ASSIGN
  | XOR_ASSIGN
  | SEMICOLON
  | EOF
  deriving DecidableEq, Repr

/-- The token-type tag, used in error messages. -/
def tokTypeStr : Token → String
  | .NUMBER _ _ => "NUMBER"
  | .IDENTIFIER _ => "IDENTIFIER"
  | .LPAREN => "LPAREN"
  | .RPAREN => "RPAREN"
  | .OR => "OR"
  | .AND => "AND"
  | .XOR => "XOR"
  | .NOT => "NOT"
  | .LSHIFT => "LSHIFT"
  | .RSHIFT => "RSHIFT"
  | .ASSIGN => "ASSIGN"
  | .OR_ASSIGN => "OR_ASSIGN"
  | .AND_ASSIGN => "AND_ASSIGN"
  | .XOR_ASSIGN => "XOR_ASSIGN"
  | .SEMICOLON => "SEMICOLON"
  | .EOF => "EOF"

/-- The `value` field of each token as the source sets it. -/
def tokValStr : Token → String
  | .NUMBER v _ => v
  | .IDENTIFIER v => v
  | .LPAREN => "("
  | .RPAREN => ")"
  | .OR => "|"
  | .AND => "&"
  | .XOR => "^"
  | .NOT => "~"
  | .LSHIFT => "<<"
  | .RSHIFT => ">>"
  | .ASSIGN => "="
  | .OR_ASSIGN => "|="
  | .AND_ASSIGN => "&="
  | .XOR_ASSIGN => "^="
  | .SEMICOLON => ";"
  | .EOF => ""

/-- One iteration of the tokenizer's `while` loop on a non-empty input
`c :: cs`, mirroring the source's branch order: whitespace, semicolon,
two-character operators (with the `i+1 < length` lookahead),
single-character operators, numeric literals (hex, binary, decimal, each
masked to 8 bits at creation), identifiers, and silent skipping of any
other character.  Returns
 the token pushed (if any; whitespace and
unrecognized characters push none) and the characters remaining. -/
def tokStep (c : Char) (cs : List Char) : Option Token × List Char :=
  if isWsChar c then (none, cs)
  else if c = ';' then (some Token.SEMICOLON, cs)
  else if c = '|' && cs.head? = some '=' then (some Token.OR_ASSIGN, cs.tail)
  else if c = '&' && cs.head? = some '=' then (some Token.AND_ASSIGN, cs.tail)
  else if c = '^' && cs.head? = some '=' then (some Token.XOR_ASSIGN, cs.tail)
  else if c = '<' && cs.head? = some '<' then (some Token.LSHIFT, cs.tail)
  else if c = '>' && cs.head? = some '>' then (some Token.RSHIFT, cs.tail)
  else if c = '=' then (some Token.ASSIGN, cs)
  else if c = '|' then (some Token.OR, cs)
  else if c = '&' then (some Token.AND, cs)
  else if c = '^' then (some Token.XOR, cs)
  else if c = '~' then (some Token.NOT, cs)
  else if c = '(' then (some Token.LPAREN, cs)
  else if c = ')' then (some Token.RPAREN, cs)
  else if c.isDigit then
    if c = '0' && (cs.head? = some 'x' || cs.head? = some 'X') then
      (some (Token.NUMBER (String.mk ('0' :: 'x' :: cs.tail.takeWhile isHexDigitCh))
          (foldDigits 16 hexVal (cs.tail.takeWhile isHexDigitCh) % 256)),
        cs.tail.dropWhile isHexDigitCh)
    else if c = '0' && (cs.head? = some 'b' || cs.head? = some 'B') then
      (some (Token.NUMBER (String.mk ('0' :: 'b' :: cs.tail.takeWhile isBinDigitCh))
          (foldDigits 2 digitVal (cs.tail.takeWhile isBinDigitCh) % 256)),
        cs.tail.dropWhile isBinDigitCh)
    else
      (some (Token.NUMBER (String.mk (c :: cs.takeWhile Char.isDigit))
          (foldDigits 10 digitVal (c :: cs.takeWhile Char.isDigit) % 256)),
        cs.dropWhile Char.isDigit)
  else if isIdentStartChar c then
    (some (Token.IDENTIFIER (String.mk (c :: cs.takeWhile isIdentChar))),
      cs.dropWhile isIdentChar)
  else (none, cs)

theorem ite_le_of {P : Prop} [Decidable P] {a b n : Nat} (ha : a ≤ n) (hb : b ≤ n) :
    (if P then a else b) ≤ n := by
  split
  · exact ha
  · exact hb

set_option maxHeartbeats 1000000 in
/-- Each loop iteration consumes at least the head character. -/
theorem tokStep_rest_le (c : Char) (cs : List Char) :
    (tokStep c cs).2.length ≤ cs.length := by
  simp only [tokStep, apply_ite Prod.snd, apply_ite List.length]
  repeat'
    first
      | exact Nat.le_refl _
      | exact tail_length_le _
      | exact Nat.le_trans (dropWhile_length_le _ _) (tail_length_le _)
      | exact dropWhile_length_le _ _
      | apply ite_le_of

/-- The tokenizer's scan, one `tokStep` per iteration, with a fuel
argument bounding the number of iterations (each consumes at least
one character, so the input's length suffices; see
`tokGo_fuel_irrel`). -/
def tokGo : Nat → List Char → List Token
  | 0, _ => []
  | _ + 1, [] => []
  | n + 1, c :: cs =>
    match tokStep c cs with
    | (some t, rest) => t :: tokGo n rest
    | (none, rest) => tokGo n rest

/-- The tokenizer's full scan. -/
def tokenizeCore (l : List Char) : List Token := tokGo l.length l

theorem tokGo_nil (n : Nat) : tokGo n [] = [] := by
  cases n <;> rfl

/-- Any fuel at least the input's length runs the scan to completion. -/
theorem tokGo_fuel_irrel : ∀ n m (l : List Char), l.length ≤ n → l.length ≤ m →
    tokGo n l = tokGo m l := by
  intro n
  induction n with
  | zero =>
    intro m l hl _
    have : l = [] := List.length_eq_zero.mp (Nat.le_zero.mp hl)
    subst this
    rw [tokGo_nil, tokGo_nil]
  | succ n ih =>
    intro m l hn hm
    cases l with
    | nil => rw [tokGo_nil, tokGo_nil]
    | cons c cs =>
      cases m with
      | zero => simp at hm
      | succ m =>
        have hcs : cs.length ≤ n := by simpa using hn
        have hcs' : cs.length ≤ m := by simpa using hm
        rcases h : tokStep c cs with ⟨t, rest⟩
        have hr : rest.length ≤ cs.length := by
          have h2 := tokStep_rest_le c cs
          rw [h] at h2
          exact h2
        simp only [tokGo, h]
        cases t with
        | none => exact ih m rest (Nat.le_trans hr hcs) (Nat.le_trans hr hcs')
        | some t =>
          exact congrArg (List.cons t) (ih m rest (Nat.le_trans hr hcs) (Nat.le_trans hr hcs'))

/-- Unfolding `tokenizeCore` one loop iteration at a time. -/
theorem tokenizeCore_cons (c : Char) (cs : List Char) :
    tokenizeCore (c :: cs) =
      (match tokStep c cs with
       | (some t, rest) => t :: tokenizeCore rest
       | (none, rest) => tokenizeCore rest) := by
  rcases h : tokStep c cs with ⟨t, rest⟩
  have hr : rest.length ≤ cs.length := by
    have h2 := tokStep_rest_le c cs
    rw [h] at h2
    exact h2
  show tokGo (cs.length + 1) (c :: cs) = _
  simp only [tokGo, tokenizeCore, h]
  cases t with
  | none => exact tokGo_fuel_irrel _ _ _ hr (Nat.le_refl _)
  | some t => exact congrArg (List.cons t) (tokGo_fuel_irrel _ _ _ hr (Nat.le_refl _))

/-- `tokenize`: trim, scan, and append the EOF sentinel. -/
def tokenize (input : String) : List Token :=
  tokenizeCore (jsTrim input.data) ++ [Token.EOF]

/-! ## Recursive-descent parser (class `Parser`)

The parser's position into the token array is modelled by passing the
remaining token suffix.  `peek` on an exhausted suffix returns the EOF
fallback, as `this.tokens[this.pos] || EOF` does.  The mutual recursion
of the precedence levels (which terminates in the source because every
cycle through `parsePrimary` consumes a `(`) is expressed with a fuel
argument threaded through every call; fuel exhaustion yields a parse
error that is never reached at the fuel budget used by `evaluate`
for any input arising in the theorems below. -/

abbrev PRes := Except String (Nat × List Token)

/-- `peek()`: the head token, with the source's `|| EOF` fallback. -/
def peekT : List Token → Token
  | [] => Token.EOF
  | t :: _ => t

/-- The precedence levels of the recursive-descent parser.  The `*A`
phases carry the accumulated left operand of the corresponding `while`
loop in the source. -/
inductive PPhase where
  | or
  | orA (left : Nat)
  | xor
  | xorA (left : Nat)
  | and
  | andA (left : Nat)
  | shift
  | shiftA (left : Nat)
  | unary
  | primary

/-- Error propagation of a thrown parse error through a calling parse
method: exceptions abort the whole parse, so a failed sub-parse is
returned as is and a successful one feeds its value and the position
into the continuation. -/
def pbind (x : PRes) (f : Nat → List Token → PRes) : PRes :=
  match x with
  | .error e => .error e
  | .ok (v, ts) => f v ts

/-- The mutually recursive parser methods `parseOr` … `parsePrimary`,
written as a single function over the phase so that the recursion is
structural on the fuel (one unit per method call).  The named wrappers
`parseOr`, `parseXor`, … below recover the source's methods. -/
def parseP : Nat → PPhase → List Token → PRes
  | 0, _, _ => .error "Parse error"
  | fuel + 1, ph, ts =>
    match ph with
    | .or => pbind (parseP fuel .xor ts) (fun left ts1 => parseP fuel (.orA left) ts1)
    | .orA left =>
      match peekT ts with
      | Token.OR =>
        pbind (parseP fuel .xor ts.tail)
          (fun right ts1 => parseP fuel (.orA ((left ||| right) % 256)) ts1)
      | _ => .ok (left, ts)
    | .xor => pbind (parseP fuel .and ts) (fun left ts1 => parseP fuel (.xorA left) ts1)
    | .xorA left =>
      match peekT ts with
      | Token.XOR =>
        pbind (parseP fuel .and ts.tail)
          (fun right ts1 => parseP fuel (.xorA ((left ^^^ right) % 256)) ts1)
      | _ => .ok (left, ts)
    | .and => pbind (parseP fuel .shift ts) (fun left ts1 => parseP fuel (.andA left) ts1)
    | .andA left =>
      match peekT ts with
      | Token.AND =>
        pbind (parseP fuel .shift ts.tail)
          (fun right ts1 => parseP fuel (.andA ((left &&& right) % 256)) ts1)
      | _ => .ok (left, ts)
    | .shift => pbind (parseP fuel .unary ts) (fun left ts1 => parseP fuel (.shiftA left) ts1)
    | .shiftA left =>
      match peekT ts with
      | Token.LSHIFT =>
        pbind (parseP fuel .unary ts.tail)
          (fun right ts1 => parseP fuel (.shiftA (jsShl8 left right)) ts1)
      | Token.RSHIFT =>
        pbind (parseP fuel .unary ts.tail)
          (fun right ts1 => parseP fuel (.shiftA (jsShr8 left right)) ts1)
      | _ => .ok (left, ts)
    | .unary =>
      match peekT ts with
      | Token.NOT => pbind (parseP fuel .unary ts.tail) (fun v ts1 => .ok (jsNot8 v, ts1))
      | _ => parseP fuel .primary ts
    | .primary =>
      match peekT ts with
      | Token.NUMBER _ n => .ok (n, ts.tail)
      | Token.IDENTIFIER name =>
        match Atmega.allNamedBits name with
        | some v => .ok (v, ts.tail)
        | none => .error ("Unknown identifier: " ++ name)
      | Token.LPAREN =>
        pbind (parseP fuel .or ts.tail) (fun v ts1 =>
          match peekT ts1 with
          | Token.RPAREN => .ok (v, ts1.tail)
          | t => .error ("Expected RPAREN but got " ++ tokTypeStr t ++ " ('" ++ tokValStr t ++ "')"))
      | t => .error ("Unexpected token: " ++ tokTypeStr t ++ " ('" ++ tokValStr t ++ "')")

/-- `parseOr`: `xor ('|' xor)*`. -/
def parseOr (fuel : Nat) (ts : List Token) : PRes := parseP fuel .or ts

/-- `parseXor`: `and ('^' and)*`. -/
def parseXor (fuel : Nat) (ts : List Token) : PRes := parseP fuel .xor ts

/-- `parseAnd`: `shift ('&' shift)*`. -/
def parseAnd (fuel : Nat) (ts : List Token) : PRes := parseP fuel .and ts

/-- `parseShift`: `unary (('<<' | '>>') unary)*`. -/
def parseShift (fuel : Nat) (ts : List Token) : PRes := parseP fuel .shift ts

/-- `parseUnary`: `'~' unary | primary`. -/
def parseUnary (fuel : Nat) (ts : List Token) : PRes := parseP fuel .unary ts

/-- `parsePrimary`: number, identifier (resolved through `allNamedBits`,
unknown names raise), or parenthesized expression. -/
def parsePrimary (fuel : Nat) (ts : List Token) : PRes := parseP fuel .primary ts

/-- The fuel budget `evaluate` supplies to the expression parser.  It
exceeds the recursion depth of any token list a practically bounded
input produces; every success theorem below is proved at this budget. -/
def FUEL : Nat := 1000000

/-- `Parser.parseExpression`: a full right-hand-side expression. -/
def parseExpressionE (ts : List Token) : PRes := parseOr FUEL ts

/-- A parsed statement `{register; value; op}`. -/
structure Stmt where
  register : String
  value : Nat
  op : String
  deriving DecidableEq, Repr

/-- One evaluation step, as recorded in `EvalResult.steps`. -/
structure Step where
  register : String
  op : String
  exprValue : Nat
  before : Nat
  after : Nat
  deriving DecidableEq, Repr

/-- Error propagation from the expression parse into `parseStatement`
(the same early-return-on-throw shape as `pbind`, at statement type). -/
def pseq (x : PRes) (f : Nat → List Token → Except String (Option Stmt × List Token)) :
    Except String (Option Stmt × List Token) :=
  match x with
  | .error e => .error e
  | .ok (v, ts) => f v ts

/-- Shared continuation of `parseStatement` after the assignment operator
has been consumed: parse the right-hand side, then the optional semicolon. -/
def parseStatementRhs (reg op : String) (ts : List Token) :
    Except String (Option Stmt × List Token) :=
  pseq (parseExpressionE ts) (fun v ts1 =>
    match peekT ts1 with
    | Token.SEMICOLON => .ok (some ⟨reg, v, op⟩, ts1.tail)
    | _ => .ok (some ⟨reg, v, op⟩, ts1))

/-- `Parser.parseStatement`: `null` (modelled `none`) at EOF or at a stray
semicolon, otherwise `IDENTIFIER assignOp expression ';'?`. -/
def parseStatement (ts : List Token) : Except String (Option Stmt × List Token) :=
  match peekT ts with
  | Token.EOF => .ok (none, ts)
  | Token.SEMICOLON => .ok (none, ts.tail)
  | Token.IDENTIFIER reg =>
    match peekT ts.tail with
    | Token.ASSIGN => parseStatementRhs reg "=" ts.tail.tail
    | Token.OR_ASSIGN => parseStatementRhs reg "|=" ts.tail.tail
    | Token.AND_ASSIGN => parseStatementRhs reg "&=" ts.tail.tail
    | Token.XOR_ASSIGN => parseStatementRhs reg "^=" ts.tail.tail
    | t => .error ("Expected assignment operator but got '" ++ tokValStr t ++ "'")
  | t => .error ("Expected IDENTIFIER but got " ++ tokTypeStr t ++ " ('" ++ tokValStr t ++ "')")

/-! ## Evaluator (`evaluate`, `checkAnswer`) -/

/-- `Record<string, number>` register state. -/
abbrev RegState := String → Option Nat

/-- The empty register-state object. -/
def emptyStates : RegState := fun _ => none

/-- Object assignment `states[r] = v`. -/
def setReg (st : RegState) (r : String) (v : Nat) : RegState :=
  fun x => if x = r then some v else st x

/-- The `switch (stmt.op)` of `evaluate`; the unreachable default case
(`throw Unknown operator`) is modelled by `none`. -/
def applyOp (op : String) (before value : Nat) : Option Nat :=
  if op = "=" then some (value % 256)
  else if op = "|=" then some ((before ||| value) % 256)
  else if op = "&=" then some ((before &&& value) % 256)
  else if op = "^=" then some ((before ^^^ value) % 256)
  else none

structure EvalResult where
  success : Bool
  registerStates : RegState
  error : Option String
  steps : List Step

/-- The statement loop of `evaluate`.  The source's `safety` counter
(`while ... safety < 100`) appears as the countdown `n`, started at 100;
when it reaches zero the loop is left and the partial result is returned
with `success = true`, exactly as the source falls through to the final
`return`. -/
def evalGo : Nat → List Token → RegState → List Step → EvalResult
  | 0, _, states, steps => ⟨true, states, none, steps⟩
  | n + 1, ts, states, steps =>
    match parseStatement ts with
    | .error e => ⟨false, states, some e, steps⟩
    | .ok (none, ts1) =>
      match peekT ts1 with
      | Token.EOF => ⟨true, states, none, steps⟩
      | _ => evalGo n ts1 states steps
    | .ok (some stmt, ts1) =>
      let before := (states stmt.register).getD 0
      match applyOp stmt.op before stmt.value with
      | none => ⟨false, states, some ("Unknown operator: " ++ stmt.op), steps⟩
      | some after =>
        evalGo n ts1 (setReg states stmt.register after)
          (steps ++ [⟨stmt.register, stmt.op, stmt.value, before, after⟩])

/-- `evaluate(code, initialStates)`. -/
def evaluate (code : String) (initialStates : RegState) : EvalResult :=
  evalGo 100 (tokenize code) initialStates []

structure CheckResult where
  correct : Bool
  userResult : Option Nat
  expected : Nat
  error : Option String
  steps : List Step

/-- `checkAnswer(userCode, targetRegister, initialValue, expectedValue)`:
seeds the register state with the single entry
`targetRegister -> initialValue` and compares the final value of
`targetRegister` (with the source's `?? initialValue` fallback) against
`expectedValue`. -/
def checkAnswer (userCode targetRegister : String) (initialValue expectedValue : Nat) :
    CheckResult :=
  let result := evaluate userCode (setReg emptyStates targetRegister initialValue)
  if result.success then
    let userResult := (result.registerStates targetRegister).getD initialValue
    ⟨userResult = expectedValue, some userResult, expectedValue, none, result.steps⟩
  else
    ⟨false, none, expectedValue, result.error, result.steps⟩

end Ev

/-! ## Incremental expression analyzer (the expression-display module) -/

namespace Disp

/-- Part tags of the display breakdown (`'shift-op'` is `shiftOp`). -/
inductive PartType where
  | register
  | operator
  | value
  | paren
  | shadow
  | shiftOp
  | separator
  deriving DecidableEq, Repr

structure ExpressionPart where
  text : String
  type : PartType
  binaryValue : Option Nat
  label : Option String
  deriving DecidableEq, Repr

structure ExpressionBreakdown where
  parts : List ExpressionPart
  resultPreview : Option Nat
  registerName : Option String
  operator : Option String
  operandValue : Option Nat
  description : String
  deriving DecidableEq, Repr

/-- `resolveIdentifier`: look an identifier up in `allNamedBits`. -/
def resolveIdentifier (name : String) : Option Nat := Atmega.allNamedBits name

/-- `parseNumberLiteral`: trim and lowercase, then hex (`parseInt(…,16)`
consumes the digits it can and is `NaN` on none), binary likewise, or a
full-string decimal; each masked to 8 bits. -/
def parseNumberLiteral (s : List Char) : Option Nat :=
  let cleaned := (jsTrim s).map Char.toLower
  match cleaned with
  | '0' :: 'x' :: rest =>
    let ds := rest.takeWhile isHexDigitCh
    if ds = [] then none else some (foldDigits 16 hexVal ds % 256)
  | '0' :: 'b' :: rest =>
    let ds := rest.takeWhile isBinDigitCh
    if ds = [] then none else some (foldDigits 2 digitVal ds % 256)
  | _ =>
    if cleaned ≠ [] && cleaned.all Char.isDigit then
      some (foldDigits 10 digitVal cleaned % 256)
    else none

/-- `isBalanced`: parenthesis depth scan with early exit below zero. -/
def isBalancedGo : List Char → Int → Bool
  | [], d => d = 0
  | c :: cs, d =>
    let d1 := if c = '(' then d + 1 else d
    let d2 := if c = ')' then d1 - 1 else d1
    if d2 < 0 then false else isBalancedGo cs d2

def isBalanced (l : List Char) : Bool := isBalancedGo l 0

/-- `splitOnOperator`'s scan: depth-0 occurrences of `op` split, with a
one-character lookahead so that `|=`, `&=`, `^=` and `<<`, `>>` are not
mistaken for split points; the current chunk is pushed even when empty
at a split, but only when non-empty at the end (JS string truthiness). -/
def splitGo (op : Char) : List Char → Int → List Char → List (List Char) → List (List Char)
  | [], _, current, parts => if current = [] then parts else parts ++ [current]
  | c :: rest, depth, current, parts =>
    let d1 := if c = '(' then depth + 1 else depth
    let d2 := if c = ')' then d1 - 1 else d1
    if d2 = 0 && c = op && !(op = '&' && rest.head? = some '=')
        && !(op = '|' && rest.head? = some '=') && !(op = '^' && rest.head? = some '=') then
      if op = '<' && rest.head? = some '<' then splitGo op rest d2 (current ++ [c]) parts
      else if op = '>' && rest.head? = some '>' then splitGo op rest d2 (current ++ [c]) parts
      else splitGo op rest d2 [] (parts ++ [current])
    else splitGo op rest d2 (current ++ [c]) parts

/-- `splitOnOperator(s, op)`. -/
def splitOnOperator (s : List Char) (op : Char) : List (List Char) :=
  splitGo op s 0 [] []

/-- `countUnmatchedParens`: open-paren surplus, clamped at zero. -/
def countUnmatchedParens : List Char → Nat → Nat
  | [], d => d
  | c :: cs, d =>
    countUnmatchedParens cs (if c = '(' then d + 1 else if c = ')' then d - 1 else d)

/-- The `while` loop of `safeEval` that strips balanced outer parens;
each iteration removes two characters, so the length is enough fuel. -/
def stripParensGo : Nat → List Char → List Char
  | 0, s => s
  | n + 1, s =>
    if s.head? = some '(' && s.getLast? = some ')' && isBalanced (s.drop 1).dropLast then
      stripParensGo n (s.drop 1).dropLast
    else s

def stripParens (s : List Char) : List Char := stripParensGo s.length s

/-- `s.indexOf(cc)` for the two-character operators `<<` and `>>`. -/
def idxOfTwo (c : Char) : List Char → Option Nat
  | [] => none
  | a :: rest =>
    if a = c && rest.head? = some c then some 0
    else (idxOfTwo c rest).map (· + 1)

/-- The accumulation step of `safeEval`'s OR / AND / XOR loops. -/
def accumOp (op : Char) (acc v : Nat) : Nat :=
  if op = '|' then acc ||| v
  else if op = '&' then acc &&& v
  else acc ^^^ v

/-- Argument of the recursive `safeEval` evaluation: either one
(sub)expression string, or the pending chunk list of one of the
OR / AND / XOR loops together with the accumulator. -/
inductive SEArg where
  | one (expr : List Char)
  | fold (op : Char) (parts : List (List Char)) (acc : Nat)

/-- `safeEval`, written as a single fueled function (the chunk loops,
which recursively evaluate every chunk and abort on an unresolvable one,
are the `.fold` phases; the `.one` phase is the function body).  The
source's recursion terminates on every input because each recursive call
receives a strictly shorter string; fuel exhaustion returns `none`,
which concrete runs never hit at the budgets used below.  Branch order
follows the source: strip all whitespace, strip balanced outer parens,
top-level `|` split, `&` split, `^` split, `~`, `<<`, `>>`, number
literal, named constant, else unresolvable.  The XOR loop's `i === 0`
special case equals folding from 0 because `0 ^^^ v = v`. -/
def safeEvalP : Nat → SEArg → Option Nat
  | 0, _ => none
  | _ + 1, .fold _ [] acc => some (acc % 256)
  | fuel + 1, .fold op (p :: rest) acc =>
    match safeEvalP fuel (.one p) with
    | none => none
    | some v => safeEvalP fuel (.fold op rest (accumOp op acc v))
  | fuel + 1, .one expr =>
    let s := stripParens (expr.filter (fun c => !isWsChar c))
    let orParts := splitOnOperator s '|'
    if 1 < orParts.length then safeEvalP fuel (.fold '|' orParts 0)
    else
      let andParts := splitOnOperator s '&'
      if 1 < andParts.length then safeEvalP fuel (.fold '&' andParts 255)
      else
        let xorParts := splitOnOperator s '^'
        if 1 < xorParts.length then safeEvalP fuel (.fold '^' xorParts 0)
        else if s.head? = some '~' then
          match safeEvalP fuel (.one (s.drop 1)) with
          | none => none
          | some v => some (jsNot8 v)
        else
          match idxOfTwo '<' s with
          | some i =>
            match safeEvalP fuel (.one (s.take i)), safeEvalP fuel (.one (s.drop (i + 2))) with
            | some l, some r => some (jsShl8 l r)
            | _, _ => none
          | none =>
            match idxOfTwo '>' s with
            | some i =>
              match safeEvalP fuel (.one (s.take i)), safeEvalP fuel (.one (s.drop (i + 2))) with
              | some l, some r => some (jsShr8 l r)
              | _, _ => none
            | none =>
              match parseNumberLiteral s with
              | some v => some v
              | none => Atmega.allNamedBits (String.mk s)

/-- `safeEval(expr)` at a fuel budget that covers the source's recursion
depth for the input. -/
def safeEval (expr : List Char) : Option Nat :=
  safeEvalP (4 * expr.length + 4) (.one expr)

/-- Models `tryEvaluatePartial` of the source: trimmed-empty is
unresolvable, then direct number literal, then named constant, then the
`safeEval` evaluator (whose `try`/`catch` is dead code, as `safeEval`
contains no `throw`). -/
def tryEvalRhs (expr : List Char) : Option Nat :=
  let trimmed := jsTrim expr
  if trimmed = [] then none
  else
    match parseNumberLiteral trimmed with
    | some v => some v
    | none =>
      match resolveIdentifier (String.mk trimmed) with
      | some v => some v
      | none => safeEval trimmed

/-- `toBin8(n)`: `(n & 0xFF).toString(2).padStart(8, '0')`. -/
def toBin8 (n : Nat) : String :=
  String.mk ((List.range 8).reverse.map (fun i => if (n % 256).testBit i then '1' else '0'))

/-- Deterministic model of `/^\(?(\d+)\s*<<\s*(\w+)\)?$/`: an optional
open paren, the digit group, optional whitespace, `<<`, optional
whitespace, the word group, an optional close paren, end of string.
Returns the two capture groups.  (Backtracking cannot rescue a failure:
a digit handed back cannot match `\s*<<`, and a word character handed
back cannot match `\)?$`.) -/
def shiftPatMatch (l : List Char) : Option (List Char × List Char) :=
  let l1 := if l.head? = some '(' then l.drop 1 else l
  let ds := l1.takeWhile Char.isDigit
  if ds = [] then none
  else
    match (l1.drop ds.length).dropWhile isWsChar with
    | '<' :: '<' :: l3 =>
      let l4 := l3.dropWhile isWsChar
      let ws := l4.takeWhile isIdentChar
      if ws = [] then none
      else
        let l5 := l4.drop ws.length
        let l6 := if l5.head? = some ')' then l5.drop 1 else l5
        if l6 = [] then some (ds, ws) else none
    | _ => none

/-- `rhs.replace(/^\(/, '')`. -/
def stripLeadParen (l : List Char) : List Char :=
  if l.head? = some '(' then l.drop 1 else l

/-- `rhs.replace(/\)$/, '')`. -/
def stripTrailParen (l : List Char) : List Char :=
  if l.getLast? = some ')' then l.dropLast else l

/-- The parts produced by the special `(digits << word)?` branch of
`buildRhsParts`; `base` is re-rendered via `String(base)` and masked
only in its binary hint, and the close paren is shown only when the
user typed it (`rhs` ends in `)` or `);`). -/
def shiftPatParts (rhs ds sb : List Char) : List ExpressionPart :=
  let base := foldDigits 10 digitVal ds
  let shiftNum :=
    match parseNumberLiteral sb with
    | some v => some v
    | none => resolveIdentifier (String.mk sb)
  let evaluated := shiftNum.map (fun sn => jsShl8 base sn)
  [⟨"(", .paren, none, none⟩,
   ⟨toString base, .value, some (base % 256), some (toString base)⟩,
   ⟨"<<", .shiftOp, none, none⟩,
   ⟨String.mk sb, .value, shiftNum,
     some (match shiftNum with
           | some sn => "bit " ++ toString sn
           | none => String.mk sb)⟩]
  ++ (if [')'].isSuffixOf rhs || [')', ';'].isSuffixOf rhs then
        [(⟨")", .paren, none, none⟩ : ExpressionPart)]
      else [])
  ++ (match evaluated with
      | some ev => [(⟨"= " ++ toBin8 ev, .separator, some ev, none⟩ : ExpressionPart)]
      | none => [])

/-- Argument of the recursive `buildRhsParts`: one right-hand-side
string, or the remaining OR segments (with their index, which decides
whether a `|` separator is pushed first). -/
inductive BArg where
  | one (rhs : List Char)
  | segs (i : Nat) (ss : List (List Char))

/-- `buildRhsParts`, as a single fueled function (the OR-segment loop is
the `.segs` phase).  `none` models non-termination of the source's
recursion: the source has no base case that shrinks an OR segment that
splits into itself, so fuel exhaustion is reachable — see the analyzer
divergence theorem below.  The unused `_rawAfterOp` parameter of the
source is dropped. -/
def buildRhsPartsP : Nat → BArg → Option (List ExpressionPart)
  | 0, _ => none
  | _ + 1, .segs _ [] => some []
  | fuel + 1, .segs i (seg :: rest) =>
    match buildRhsPartsP fuel (.one (jsTrim seg)) with
    | none => none
    | some segParts =>
      match buildRhsPartsP fuel (.segs (i + 1) rest) with
      | none => none
      | some tailParts =>
        some ((if 0 < i then [(⟨"|", .operator, none, none⟩ : ExpressionPart)] else [])
          ++ segParts ++ tailParts)
  | fuel + 1, .one rhs =>
    match shiftPatMatch rhs with
    | some (ds, sb) => some (shiftPatParts rhs ds sb)
    | none =>
      if rhs.head? = some '~' then
        match buildRhsPartsP fuel (.one (rhs.drop 1)) with
        | none => none
        | some inner => some (⟨"~", .operator, none, none⟩ :: inner)
      else if rhs.contains '|' && (idxOfTwo '<' rhs).isSome then
        buildRhsPartsP fuel (.segs 0 (splitOnOperator (stripTrailParen (stripLeadParen rhs)) '|'))
      else
        match tryEvalRhs rhs with
        | some v => some [⟨String.mk rhs, .value, some v, none⟩]
        | none => some [⟨String.mk rhs, .value, none, none⟩]

/-- `buildRhsParts(rhs, _rawAfterOp)`. -/
def buildRhsParts (fuel : Nat) (rhs : List Char) : Option (List ExpressionPart) :=
  buildRhsPartsP fuel (.one rhs)

/-- `afterOp.replace(/;$/, '')`: drop one trailing semicolon. -/
def stripTrailSemi (l : List Char) : List Char :=
  if l.getLast? = some ';' then l.dropLast else l

/-- The `/^([A-Z][A-Z0-9_]*)/` register match. -/
def matchRegName : List Char → Option (List Char)
  | [] => none
  | c :: cs =>
    if c.isUpper then some (c :: cs.takeWhile (fun d => d.isUpper || d.isDigit || d = '_'))
    else none

/-- The `/^(\|=|&=|\^=|=)/` operator match (alternatives tried left to
right, so the compound operators win over plain `=`). -/
def opMatch : List Char → Option String
  | '|' :: '=' :: _ => some "|="
  | '&' :: '=' :: _ => some "&="
  | '^' :: '=' :: _ => some "^="
  | '=' :: _ => some "="
  | _ => none

/-- The `opLabels` table (with its `|| operator` fallback). -/
def opLabel (op : String) : String := if op = "=" then "←" else op

/-- The `opDesc` table of the empty-right-hand-side description. -/
def opAssignDesc (op : String) : String :=
  if op = "=" then "Assign to"
  else if op = "|=" then "OR with"
  else if op = "&=" then "AND with"
  else if op = "^=" then "XOR with"
  else ""

/-- The `opWord` table of the resolved-operand description. -/
def opWord (op : String) : String :=
  if op = "=" then "Set"
  else if op = "|=" then "OR"
  else if op = "&=" then "AND"
  else if op = "^=" then "XOR"
  else ""

/-- The result-preview `switch`: on any operator outside the four cases
the preview would stay `null`, which the final `else none` models. -/
def previewOf (op : String) (initialValue ov : Nat) : Option Nat :=
  if op = "=" then some (ov % 256)
  else if op = "|=" then some ((initialValue ||| ov) % 256)
  else if op = "&=" then some ((initialValue &&& ov) % 256)
  else if op = "^=" then some ((initialValue ^^^ ov) % 256)
  else none

/-- `parseExpression(input, _registerName, initialValue)`: the partial
analyzer's staged scan — register name, then assignment operator, then
right-hand side (whose display parts come from the fueled
`buildRhsParts`; `none` of the result models the divergence of that
recursion, and every stage that does not reach it returns `some`). -/
def parseExpression (fuel : Nat) (input _registerName : String) (initialValue : Nat) :
    Option ExpressionBreakdown :=
  let trimmed := jsTrim input.data
  if trimmed = [] then some ⟨[], none, none, none, none, ""⟩
  else
    match matchRegName trimmed with
    | none => some ⟨[⟨String.mk trimmed, .value, none, none⟩], none, none, none, none, "typing..."⟩
    | some reg =>
      let foundRegister := String.mk reg
      let part0 : ExpressionPart := ⟨foundRegister, .register, some initialValue, none⟩
      let afterReg := jsTrim (trimmed.drop reg.length)
      if afterReg = [] then
        some ⟨[part0], some initialValue, some foundRegister, none, none,
          "Register " ++ foundRegister⟩
      else
        match opMatch afterReg with
        | some op =>
          let part1 : ExpressionPart := ⟨opLabel op, .operator, none, none⟩
          let afterOp := jsTrim (afterReg.drop op.length)
          if afterOp = [] then
            some ⟨[part0, part1], none, some foundRegister, some op, none,
              opAssignDesc op ++ " " ++ foundRegister ++ " ..."⟩
          else
            let rhsClean := jsTrim (stripTrailSemi afterOp)
            let operandValue := tryEvalRhs rhsClean
            (buildRhsParts fuel rhsClean).map (fun rhsParts =>
              let unmatched := countUnmatchedParens rhsClean 0
              let parts := [part0, part1] ++ rhsParts
                ++ (if 0 < unmatched then
                      [(⟨String.mk (List.replicate unmatched ')'), .shadow, none, none⟩ :
                        ExpressionPart)]
                    else [])
              let resultPreview :=
                match operandValue with
                | some ov => previewOf op initialValue ov
                | none => none
              let description :=
                match operandValue with
                | some ov => opWord op ++ " → " ++ toBin8 ov
                | none => "typing..."
              ⟨parts, resultPreview, some foundRegister, some op, operandValue, description⟩)
        | none =>
          let partialOp := afterReg
          if partialOp = [] then
            some ⟨[part0], none, some foundRegister, none, none, ""⟩
          else
            some ⟨[part0, ⟨String.mk partialOp, .operator, none, none⟩], none,
              some foundRegister, none, none,
              foundRegister ++ " " ++ String.mk partialOp ++ " ..."⟩

end Disp

/-! ## Derived notions used by the claims -/

namespace Ev

/-- The strict evaluator's verdict on a text as a full right-hand-side
expression: the value `parseOr` (the entry precedence level, at
`evaluate`'s fuel budget) computes when it consumes the whole token
stream up to `EOF`. -/
def strictRhs (e : String) : Option Nat :=
  match parseOr FUEL (tokenize e) with
  | .ok (v, [Token.EOF]) => some v
  | _ => none

/-- Replaying a step list over a register state: each step writes its
`after` value to its register, exactly as the `evaluate` loop does. -/
def applySteps (st : RegState) (steps : List Step) : RegState :=
  steps.foldl (fun s step => setReg s step.register step.after) st

end Ev

/-! ## C1: the partial analyzer on prefixes of valid statements -/

/-- The right-hand-side string on which `buildRhsParts` loses progress:
`1<<(2|3` (after the trailing-paren strip of `1<<(2|3)`), whose
depth-respecting `|` split returns the string itself as its only
segment. -/
def badRhsSeg : List Char := "1<<(2|3".data

/-- The cleaned right-hand side of the failing statement. -/
def badRhsFull : List Char := "1<<(2|3)".data

/-- No amount of fuel completes `buildRhsParts` on the failing
right-hand side: the `.one`/`.segs` pair cycles on `badRhsSeg`. -/
theorem buildRhs_diverges : ∀ n,
    Disp.buildRhsPartsP n (Disp.BArg.one badRhsSeg) = none ∧
    Disp.buildRhsPartsP n (Disp.BArg.segs 0 [badRhsSeg]) = none ∧
    Disp.buildRhsPartsP n (Disp.BArg.one badRhsFull) = none := by
  intro n
  induction n with
  | zero => exact ⟨rfl, rfl, rfl⟩
  | succ n ih =>
    refine ⟨?_, ?_, ?_⟩
    · show Disp.buildRhsPartsP n (Disp.BArg.segs 0 [badRhsSeg]) = none
      exact ih.2.1
    · show (match Disp.buildRhsPartsP n (Disp.BArg.one badRhsSeg) with
            | none => none
            | some segParts =>
              match Disp.buildRhsPartsP n (Disp.BArg.segs 1 []) with
              | none => none
              | some tailParts =>
                some ((if 0 < 0 then [(⟨"|", .operator, none, none⟩ : Disp.ExpressionPart)]
                  else []) ++ segParts ++ tailParts)) = none
      rw [ih.1]
    · show Disp.buildRhsPartsP n (Disp.BArg.segs 0 [badRhsSeg]) = none
      exact ih.2.1

/-- Stage 3 of the analyzer on the failing statement reduces to mapping
over the diverging `buildRhsParts` run. -/
theorem parseExpression_c1_unfold (fuel : Nat) :
    Disp.parseExpression fuel "PORTA = 1<<(2|3);" "PORTA" 0 =
      (Disp.buildRhsParts fuel badRhsFull).map (fun rhsParts =>
        { parts := [⟨"PORTA", .register, some 0, none⟩, ⟨"←", .operator, none, none⟩]
            ++ rhsParts
            ++ (if 0 < Disp.countUnmatchedParens badRhsFull 0 then
                  [(⟨String.mk (List.replicate (Disp.countUnmatchedParens badRhsFull 0) ')'),
                    .shadow, none, none⟩ : Disp.ExpressionPart)]
                else [])
          resultPreview := some 8
          registerName := some "PORTA"
          operator := some "="
          operandValue := some 8
          description := "Set → 00001000" }) := rfl

/-- C1: the claim fails on the code.  The statement
`PORTA = 1<<(2|3);` is accepted by the strict evaluator (success, with
`PORTA = 8`), yet the partial analyzer never returns on it — its
`buildRhsParts` recursion makes no progress on the OR segment
`1<<(2|3`, so the source overflows the call stack (a thrown
`RangeError`) instead of returning an `ExpressionBreakdown`; in the
fueled model, the analyzer yields `none` for every fuel. -/
theorem c1_partial_analyzer_diverges :
    (Ev.evaluate "PORTA = 1<<(2|3);" Ev.emptyStates).success = true ∧
    (Ev.evaluate "PORTA = 1<<(2|3);" Ev.emptyStates).registerStates "PORTA" = some 8 ∧
    ∀ fuel, Disp.parseExpression fuel "PORTA = 1<<(2|3);" "PORTA" 0 = none := by
  refine ⟨rfl, rfl, fun fuel => ?_⟩
  rw [parseExpression_c1_unfold fuel]
  rw [show Disp.buildRhsParts fuel badRhsFull = none from (buildRhs_diverges fuel).2.2]
  rfl

/-! ## C2: analyzer versus strict evaluator on right-hand sides -/

/-- C2 counterexample: on `1^1&2` the strict evaluator computes
`1 ^ (1 & 2) = 1` (`&` binds tighter than `^`), while the analyzer
splits on `&` before `^` and computes `(1 ^ 1) & 2 = 0`; the analyzer
returns a number and it differs from the strict value. -/
theorem c2_counterexample :
    Ev.strictRhs "1^1&2" = some 1 ∧
    Disp.tryEvalRhs "1^1&2".data = some 0 ∧
    (0 : Nat) ≠ 1 := ⟨rfl, rfl, by decide⟩

/-- C2 amended: the analyzer's `safeEval` splits on top-level `|`, then
`&`, then `^`, then `~`, then the first `<<`/`>>` — which swaps the
relative precedence of `&` and `^` and breaks shift associativity
relative to the strict parser, so agreement fails in general (see the
counterexample).  Agreement does hold on the exercise family of decimal
literals and OR-combinations of single-bit shifts: both sides give
`2^j ||| 2^k` on `(1<<j)|(1<<k)` for all bit indices `j, k < 8`. -/
theorem c2_amended (j k : Nat) (hj : j < 8) (hk : k < 8) :
    Ev.strictRhs ("(1<<" ++ toString j ++ ")|(1<<" ++ toString k ++ ")")
      = some (2 ^ j ||| 2 ^ k) ∧
    Disp.tryEvalRhs ("(1<<" ++ toString j ++ ")|(1<<" ++ toString k ++ ")").data
      = some (2 ^ j ||| 2 ^ k) := by
  interval_cases j <;> interval_cases k <;> exact ⟨rfl, rfl⟩

/-- Witness for the amended C2 at `j = 1`, `k = 2`. -/
theorem c2_amended_witness :
    Ev.strictRhs "(1<<1)|(1<<2)" = some 6 ∧
    Disp.tryEvalRhs "(1<<1)|(1<<2)".data = some 6 := by
  have h := c2_amended 1 2 (by decide) (by decide)
  simpa using h

/-! ## C3, counterexample part: shift counts are taken mod 32 -/

/-- C3 counterexample: the claim says `X = 1 << 32;` leaves
`X = (1 * 2^32) mod 256 = 0`, but JS takes the shift count modulo 32,
so the code leaves `X = 1`. -/
theorem c3_counterexample :
    (Ev.evaluate "X = 1 << 32;" Ev.emptyStates).registerStates "X" = some 1 ∧
    (1 * 2 ^ 32) % 256 = 0 ∧ (1 : Nat) ≠ 0 := by
  refine ⟨rfl, by norm_num, by decide⟩

/-! ## C6: the `0xFQ` tokenizer behavior -/

/-- C6 counterexample: the claim says the evaluation of
`PORTA = 0xFQ;` succeeds; it does not — the stray `Q` becomes an
identifier token and the second `parseStatement` call throws. -/
theorem c6_counterexample :
    (Ev.evaluate "PORTA = 0xFQ;" Ev.emptyStates).success = false := rfl

/-- C6 amended: tokenization of `PORTA = 0xFQ;` stops the hex literal at
`F` (number `0xF` = 15) and tokenizes `Q` as an identifier; the first
statement parses and commits `PORTA = 0x0F` (step recorded, register
state updated), but the overall evaluation then fails on the dangling
`Q` with `success = false` and the expected-assignment-operator error,
rather than succeeding. -/
theorem c6_amended :
    Ev.tokenize "PORTA = 0xFQ;" =
      [Ev.Token.IDENTIFIER "PORTA", Ev.Token.ASSIGN, Ev.Token.NUMBER "0xF" 15,
       Ev.Token.IDENTIFIER "Q", Ev.Token.SEMICOLON, Ev.Token.EOF] ∧
    (Ev.evaluate "PORTA = 0xFQ;" Ev.emptyStates).registerStates "PORTA" = some 15 ∧
    (Ev.evaluate "PORTA = 0xFQ;" Ev.emptyStates).steps = [⟨"PORTA", "=", 15, 0, 15⟩] ∧
    (Ev.evaluate "PORTA = 0xFQ;" Ev.emptyStates).success = false ∧
    (Ev.evaluate "PORTA = 0xFQ;" Ev.emptyStates).error =
      some "Expected assignment operator but got ';'" :=
  ⟨rfl, rfl, rfl, rfl, rfl⟩

/-! ## C7: result preview only when the operand resolves -/

/-- C7 counterexample: on the register-only input `PORTA` the analyzer
returns `operandValue = none` together with `resultPreview =` the
initial value (here 5) — not `none` as the claim requires for every
input. -/
theorem c7_counterexample :
    (Disp.parseExpression 100 "PORTA" "PORTA" 5).map (·.operandValue) = some none ∧
    (Disp.parseExpression 100 "PORTA" "PORTA" 5).map (·.resultPreview) = some (some 5) ∧
    (some 5 : Option Nat) ≠ none := ⟨rfl, rfl, by decide⟩

/-- C7 amended: whenever the returned breakdown has
`operandValue = none`, its `resultPreview` is `none` — except on an
input that is exactly a register name (no operator detected yet), where
the preview is the initial value. -/
theorem c7_amended (fuel : Nat) (input reg : String) (initialValue : Nat)
    (b : Disp.ExpressionBreakdown)
    (h : Disp.parseExpression fuel input reg initialValue = some b)
    (hov : b.operandValue = none) :
    b.resultPreview = none ∨
      (b.operator = none ∧ b.resultPreview = some initialValue) := by
  simp only [Disp.parseExpression] at h
  repeat' split at h
  all_goals try (injection h with h; subst h)
  all_goals
    try (first
      | exact Or.inl rfl
      | exact Or.inr ⟨rfl, rfl⟩)
  all_goals rcases Option.map_eq_some'.mp h with ⟨ps, hps, hglue⟩
  all_goals subst hglue
  all_goals simp only at hov ⊢
  all_goals
    first
      | exact Or.inl rfl
      | simp_all

/-- Witness for the amended C7 on the in-progress input `PORTA |= zz`
(unresolvable right-hand side): the preview is absent. -/
theorem c7_witness :
    (Disp.parseExpression 100 "PORTA |= zz" "PORTA" 7).bind (·.resultPreview) = none := by
  have hb : Disp.parseExpression 100 "PORTA |= zz" "PORTA" 7 =
      some { parts := [⟨"PORTA", .register, some 7, none⟩, ⟨"|=", .operator, none, none⟩,
               ⟨"zz", .value, none, none⟩]
             resultPreview := none
             registerName := some "PORTA"
             operator := some "|="
             operandValue := none
             description := "typing..." } := rfl
  rcases c7_amended 100 "PORTA |= zz" "PORTA" 7 _ hb rfl with h | ⟨hop, _⟩
  · rw [hb]
    exact h
  · exact Option.noConfusion hop

/-! ## Parser invariants: 8-bit bounds and forward progress -/

namespace Ev

/-- Number tokens carry 8-bit-masked values (established at
tokenization time, used by `parsePrimary`). -/
def tokBound : Token → Prop
  | .NUMBER _ n => n < 256
  | _ => True

theorem ite_opt_bound {P : Prop} [Decidable P] {a b : Option Token}
    (ha : ∀ t, a = some t → tokBound t) (hb : ∀ t, b = some t → tokBound t) :
    ∀ t, (if P then a else b) = some t → tokBound t := by
  split
  · exact ha
  · exact hb

set_option maxHeartbeats 1000000 in
/-- Every token a tokenizer iteration pushes is bounded. -/
theorem tokStep_fst_bound (c : Char) (cs : List Char) :
    ∀ t, (tokStep c cs).1 = some t → tokBound t := by
  simp only [tokStep, apply_ite Prod.fst]
  repeat' apply ite_opt_bound
  all_goals
    first
      | exact fun t ht => by
          injection ht with h2
          subst h2
          first
            | trivial
            | exact Nat.mod_lt _ (by norm_num)
      | exact fun t ht => by injection ht

theorem tokGo_bound : ∀ n l, ∀ t ∈ tokGo n l, tokBound t := by
  intro n
  induction n with
  | zero => intro l t ht; simp [tokGo] at ht
  | succ n ih =>
    intro l t ht
    cases l with
    | nil => simp [tokGo] at ht
    | cons c cs =>
      rcases h : tokStep c cs with ⟨t0, rest⟩
      simp only [tokGo, h] at ht
      cases t0 with
      | none => exact ih rest t ht
      | some tk =>
        rcases List.mem_cons.mp ht with rfl | ht2
        · exact tokStep_fst_bound c cs t (by rw [h])
        · exact ih rest t ht2

/-- Every token `tokenize` produces is bounded. -/
theorem tokenize_bound (s : String) : ∀ t ∈ tokenize s, tokBound t := by
  intro t ht
  rcases List.mem_append.mp ht with h | h
  · exact tokGo_bound _ _ t h
  · rcases List.mem_singleton.mp h with rfl
    trivial

end Ev

set_option maxRecDepth 8000 in
/-- Every named bit resolves below 256 (indeed below 8). -/
theorem allNamedBits_lt (k : String) (v : Nat) (h : Atmega.allNamedBits k = some v) :
    v < 256 := by
  unfold Atmega.allNamedBits Atmega.jsLookup at h
  rcases ho : Atmega.allNamedBitsEntries.reverse.find? (fun e => e.1 == k) with _ | e
  · rw [ho] at h
    simp at h
  · rw [ho] at h
    simp only [Option.map_some', Option.some.injEq] at h
    have hmem : e ∈ Atmega.allNamedBitsEntries := by
      have := List.mem_of_find?_eq_some ho
      exact List.mem_reverse.mp this
    have hall : ∀ p ∈ Atmega.allNamedBitsEntries, p.2 < 256 := by decide
    rw [← h]
    exact hall e hmem

namespace Ev

/-- Inversion for a successful `pbind`. -/
theorem pbind_ok {x : PRes} {f : Nat → List Token → PRes} {v : Nat} {r : List Token}
    (h : pbind x f = .ok (v, r)) :
    ∃ w ts1, x = .ok (w, ts1) ∧ f w ts1 = .ok (v, r) := by
  cases x with
  | error e => simp [pbind] at h
  | ok p =>
    obtain ⟨w, ts1⟩ := p
    exact ⟨w, ts1, rfl, h⟩

/-- Inversion for a failed `pbind`. -/
theorem pbind_err {x : PRes} {f : Nat → List Token → PRes} {e : String}
    (h : pbind x f = .error e) :
    x = .error e ∨ ∃ w ts1, x = .ok (w, ts1) ∧ f w ts1 = .error e := by
  cases x with
  | error e0 =>
    left
    simp only [pbind] at h
    rw [h]
  | ok p =>
    obtain ⟨w, ts1⟩ := p
    exact Or.inr ⟨w, ts1, rfl, h⟩

/-- Inversion for a successful `pseq`. -/
theorem pseq_ok {x : PRes} {f : Nat → List Token → Except String (Option Stmt × List Token)}
    {stmt? : Option Stmt} {r : List Token}
    (h : pseq x f = .ok (stmt?, r)) :
    ∃ w ts1, x = .ok (w, ts1) ∧ f w ts1 = .ok (stmt?, r) := by
  cases x with
  | error e => simp [pseq] at h
  | ok p =>
    obtain ⟨w, ts1⟩ := p
    exact ⟨w, ts1, rfl, h⟩

/-- Inversion for a failed `pseq`. -/
theorem pseq_err {x : PRes} {f : Nat → List Token → Except String (Option Stmt × List Token)}
    {e : String} (h : pseq x f = .error e) :
    x = .error e ∨ ∃ w ts1, x = .ok (w, ts1) ∧ f w ts1 = .error e := by
  cases x with
  | error e0 =>
    left
    simp only [pseq] at h
    injection h with h2
    subst h2
    rfl
  | ok p =>
    obtain ⟨w, ts1⟩ := p
    exact Or.inr ⟨w, ts1, rfl, h⟩

/-- The loop accumulators of the `*A` phases are 8-bit values. -/
def phaseBound : PPhase → Prop
  | .orA l => l < 256
  | .xorA l => l < 256
  | .andA l => l < 256
  | .shiftA l => l < 256
  | _ => True

theorem jsNot8_lt (a : Nat) : jsNot8 a < 256 := by
  unfold jsNot8
  omega

theorem peekT_mem {ts : List Token} {t : Token} (h : peekT ts = t) (hne : t ≠ Token.EOF) :
    t ∈ ts := by
  cases ts with
  | nil => exact absurd h.symm hne
  | cons a l =>
    cases h
    exact List.mem_cons_self _ _

/-- Main parser invariant: a successful parse at any phase yields an
8-bit value and only moves forward in the token stream. -/
theorem parseP_ok : ∀ fuel ph ts, phaseBound ph → (∀ t ∈ ts, tokBound t) →
    ∀ v r, parseP fuel ph ts = .ok (v, r) → v < 256 ∧ r.Sublist ts := by
  intro fuel
  induction fuel with
  | zero =>
    intro ph ts _ _ v r h
    exact absurd h (by simp [parseP])
  | succ fuel ih =>
    intro ph ts hph hts v r h
    have htail : ∀ t ∈ ts.tail, tokBound t :=
      fun t ht => hts t ((List.tail_sublist ts).subset ht)
    match ph with
    | .or =>
      simp only [parseP] at h
      obtain ⟨w, ts1, h1, h2⟩ := pbind_ok h
      obtain ⟨hw, hs1⟩ := ih .xor ts trivial hts w ts1 h1
      obtain ⟨hv, hs2⟩ := ih (.orA w) ts1 hw (fun t ht => hts t (hs1.subset ht)) v r h2
      exact ⟨hv, hs2.trans hs1⟩
    | .xor =>
      simp only [parseP] at h
      obtain ⟨w, ts1, h1, h2⟩ := pbind_ok h
      obtain ⟨hw, hs1⟩ := ih .and ts trivial hts w ts1 h1
      obtain ⟨hv, hs2⟩ := ih (.xorA w) ts1 hw (fun t ht => hts t (hs1.subset ht)) v r h2
      exact ⟨hv, hs2.trans hs1⟩
    | .and =>
      simp only [parseP] at h
      obtain ⟨w, ts1, h1, h2⟩ := pbind_ok h
      obtain ⟨hw, hs1⟩ := ih .shift ts trivial hts w ts1 h1
      obtain ⟨hv, hs2⟩ := ih (.andA w) ts1 hw (fun t ht => hts t (hs1.subset ht)) v r h2
      exact ⟨hv, hs2.trans hs1⟩
    | .shift =>
      simp only [parseP] at h
      obtain ⟨w, ts1, h1, h2⟩ := pbind_ok h
      obtain ⟨hw, hs1⟩ := ih .unary ts trivial hts w ts1 h1
      obtain ⟨hv, hs2⟩ := ih (.shiftA w) ts1 hw (fun t ht => hts t (hs1.subset ht)) v r h2
      exact ⟨hv, hs2.trans hs1⟩
    | .orA left =>
      simp only [parseP] at h
      split at h
      · obtain ⟨w, ts1, h1, h2⟩ := pbind_ok h
        obtain ⟨hw, hs1⟩ := ih .xor ts.tail trivial htail w ts1 h1
        obtain ⟨hv, hs2⟩ := ih (.orA ((left ||| w) % 256)) ts1 (Nat.mod_lt _ (by norm_num))
          (fun t ht => htail t (hs1.subset ht)) v r h2
        exact ⟨hv, (hs2.trans hs1).trans (List.tail_sublist ts)⟩
      · injection h with h1
        injection h1 with hv hr
        subst hv
        subst hr
        exact ⟨hph, List.Sublist.refl _⟩
    | .xorA left =>
      simp only [parseP] at h
      split at h
      · obtain ⟨w, ts1, h1, h2⟩ := pbind_ok h
        obtain ⟨hw, hs1⟩ := ih .and ts.tail trivial htail w ts1 h1
        obtain ⟨hv, hs2⟩ := ih (.xorA ((left ^^^ w) % 256)) ts1 (Nat.mod_lt _ (by norm_num))
          (fun t ht => htail t (hs1.subset ht)) v r h2
        exact ⟨hv, (hs2.trans hs1).trans (List.tail_sublist ts)⟩
      · injection h with h1
        injection h1 with hv hr
        subst hv
        subst hr
        exact ⟨hph, List.Sublist.refl _⟩
    | .andA left =>
      simp only [parseP] at h
      split at h
      · obtain ⟨w, ts1, h1, h2⟩ := pbind_ok h
        obtain ⟨hw, hs1⟩ := ih .shift ts.tail trivial htail w ts1 h1
        obtain ⟨hv, hs2⟩ := ih (.andA ((left &&& w) % 256)) ts1 (Nat.mod_lt _ (by norm_num))
          (fun t ht => htail t (hs1.subset ht)) v r h2
        exact ⟨hv, (hs2.trans hs1).trans (List.tail_sublist ts)⟩
      · injection h with h1
        injection h1 with hv hr
        subst hv
        subst hr
        exact ⟨hph, List.Sublist.refl _⟩
    | .shiftA left =>
      simp only [parseP] at h
      split at h
      · obtain ⟨w, ts1, h1, h2⟩ := pbind_ok h
        obtain ⟨hw, hs1⟩ := ih .unary ts.tail trivial htail w ts1 h1
        obtain ⟨hv, hs2⟩ := ih (.shiftA (jsShl8 left w)) ts1 (Nat.mod_lt _ (by norm_num))
          (fun t ht => htail t (hs1.subset ht)) v r h2
        exact ⟨hv, (hs2.trans hs1).trans (List.tail_sublist ts)⟩
      · obtain ⟨w, ts1, h1, h2⟩ := pbind_ok h
        obtain ⟨hw, hs1⟩ := ih .unary ts.tail trivial htail w ts1 h1
        obtain ⟨hv, hs2⟩ := ih (.shiftA (jsShr8 left w)) ts1 (Nat.mod_lt _ (by norm_num))
          (fun t ht => htail t (hs1.subset ht)) v r h2
        exact ⟨hv, (hs2.trans hs1).trans (List.tail_sublist ts)⟩
      · injection h with h1
        injection h1 with hv hr
        subst hv
        subst hr
        exact ⟨hph, List.Sublist.refl _⟩
    | .unary =>
      simp only [parseP] at h
      split at h
      · obtain ⟨w, ts1, h1, h2⟩ := pbind_ok h
        obtain ⟨hw, hs1⟩ := ih .unary ts.tail trivial htail w ts1 h1
        injection h2 with h3
        injection h3 with hv hr
        subst hv
        subst hr
        exact ⟨jsNot8_lt w, hs1.trans (List.tail_sublist ts)⟩
      · exact ih .primary ts trivial hts v r h
    | .primary =>
      simp only [parseP] at h
      split at h
      · rename_i s n heq
        injection h with h1
        injection h1 with hv hr
        subst hv
        subst hr
        have hb := hts _ (peekT_mem heq (by simp))
        exact ⟨hb, List.tail_sublist ts⟩
      · rename_i name heq
        split at h
        · rename_i v0 heq2
          injection h with h1
          injection h1 with hv hr
          subst hv
          subst hr
          exact ⟨allNamedBits_lt name v0 heq2, List.tail_sublist ts⟩
        · exact absurd h (by simp)
      · rename_i heq
        obtain ⟨w, ts1, h1, h2⟩ := pbind_ok h
        obtain ⟨hw, hs1⟩ := ih .or ts.tail trivial htail w ts1 h1
        split at h2
        · injection h2 with h3
          injection h3 with hv hr
          subst hv
          subst hr
          exact ⟨hw, ((List.tail_sublist ts1).trans hs1).trans (List.tail_sublist ts)⟩
        · exact absurd h2 (by simp)
      · exact absurd h (by simp)

end Ev

/-! ## Error messages are never empty -/

theorem string_data_append (a b : String) : (a ++ b).data = a.data ++ b.data := by
  cases a
  cases b
  rfl

theorem data_eq_nil_iff (a : String) : a.data = [] ↔ a = "" := by
  constructor
  · intro h
    cases a
    simp only at h
    subst h
    rfl
  · intro h
    subst h
    rfl

theorem append_ne_empty_of_left (a b : String) (h : a ≠ "") : a ++ b ≠ "" := by
  intro hc
  apply h
  have h2 : (a ++ b).data = ("" : String).data := by rw [hc]
  rw [string_data_append] at h2
  exact (data_eq_nil_iff a).mp (List.append_eq_nil.mp h2 |>.1)

namespace Ev

/-- Every error the parser raises carries a non-empty message. -/
theorem parseP_err : ∀ fuel ph ts e, parseP fuel ph ts = .error e → e ≠ "" := by
  intro fuel
  induction fuel with
  | zero =>
    intro ph ts e h
    simp only [parseP] at h
    injection h with h1
    subst h1
    decide
  | succ fuel ih =>
    intro ph ts e h
    match ph with
    | .or =>
      simp only [parseP] at h
      rcases pbind_err h with h1 | ⟨w, ts1, _, h2⟩
      · exact ih .xor ts e h1
      · exact ih (.orA w) ts1 e h2
    | .xor =>
      simp only [parseP] at h
      rcases pbind_err h with h1 | ⟨w, ts1, _, h2⟩
      · exact ih .and ts e h1
      · exact ih (.xorA w) ts1 e h2
    | .and =>
      simp only [parseP] at h
      rcases pbind_err h with h1 | ⟨w, ts1, _, h2⟩
      · exact ih .shift ts e h1
      · exact ih (.andA w) ts1 e h2
    | .shift =>
      simp only [parseP] at h
      rcases pbind_err h with h1 | ⟨w, ts1, _, h2⟩
      · exact ih .unary ts e h1
      · exact ih (.shiftA w) ts1 e h2
    | .orA left =>
      simp only [parseP] at h
      split at h
      · rcases pbind_err h with h1 | ⟨w, ts1, _, h2⟩
        · exact ih .xor ts.tail e h1
        · exact ih (.orA _) ts1 e h2
      · exact absurd h (by simp)
    | .xorA left =>
      simp only [parseP] at h
      split at h
      · rcases pbind_err h with h1 | ⟨w, ts1, _, h2⟩
        · exact ih .and ts.tail e h1
        · exact ih (.xorA _) ts1 e h2
      · exact absurd h (by simp)
    | .andA left =>
      simp only [parseP] at h
      split at h
      · rcases pbind_err h with h1 | ⟨w, ts1, _, h2⟩
        · exact ih .shift ts.tail e h1
        · exact ih (.andA _) ts1 e h2
      · exact absurd h (by simp)
    | .shiftA left =>
      simp only [parseP] at h
      split at h
      · rcases pbind_err h with h1 | ⟨w, ts1, _, h2⟩
        · exact ih .unary ts.tail e h1
        · exact ih (.shiftA _) ts1 e h2
      · rcases pbind_err h with h1 | ⟨w, ts1, _, h2⟩
        · exact ih .unary ts.tail e h1
        · exact ih (.shiftA _) ts1 e h2
      · exact absurd h (by simp)
    | .unary =>
      simp only [parseP] at h
      split at h
      · rcases pbind_err h with h1 | ⟨w, ts1, _, h2⟩
        · exact ih .unary ts.tail e h1
        · exact absurd h2 (by simp)
      · exact ih .primary ts e h
    | .primary =>
      simp only [parseP] at h
      split at h
      · exact absurd h (by simp)
      · split at h
        · exact absurd h (by simp)
        · injection h with h1
          subst h1
          repeat' apply append_ne_empty_of_left
          decide
      · rcases pbind_err h with h1 | ⟨w, ts1, _, h2⟩
        · exact ih .or ts.tail e h1
        · split at h2
          · exact absurd h2 (by simp)
          · injection h2 with h1
            subst h1
            repeat' apply append_ne_empty_of_left
            decide
      · injection h with h1
        subst h1
        repeat' apply append_ne_empty_of_left
        decide

/-! ## `parseStatement` inversion -/

/-- Inversion of a successful `parseStatementRhs`: the right-hand side
parsed to an 8-bit value and the position only moved forward. -/
theorem parseStatementRhs_ok {reg op : String} {ts : List Token}
    {stmt? : Option Stmt} {r : List Token}
    (hts : ∀ t ∈ ts, tokBound t)
    (h : parseStatementRhs reg op ts = .ok (stmt?, r)) :
    ∃ v ts1, parseExpressionE ts = .ok (v, ts1) ∧ stmt? = some ⟨reg, v, op⟩ ∧
      v < 256 ∧ r.Sublist ts := by
  unfold parseStatementRhs at h
  obtain ⟨v, ts1, h1, h2⟩ := pseq_ok h
  obtain ⟨hv, hs1⟩ := parseP_ok FUEL .or ts trivial hts v ts1 h1
  refine ⟨v, ts1, h1, ?_⟩
  split at h2
  · injection h2 with h3
    injection h3 with ha hb
    subst ha
    subst hb
    exact ⟨rfl, hv, (List.tail_sublist ts1).trans hs1⟩
  · injection h2 with h3
    injection h3 with ha hb
    subst ha
    subst hb
    exact ⟨rfl, hv, hs1⟩

/-- Inversion of a successful `parseStatement`: either no statement (at
EOF or a stray semicolon), or a statement whose operator is one of the
four assignment operators and whose operand is an 8-bit value; the
remaining tokens are a sublist of the input. -/
theorem parseStatement_ok {ts : List Token} {stmt? : Option Stmt} {r : List Token}
    (hts : ∀ t ∈ ts, tokBound t)
    (h : parseStatement ts = .ok (stmt?, r)) :
    r.Sublist ts ∧ ∀ stmt, stmt? = some stmt → stmt.value < 256 ∧
      (stmt.op = "=" ∨ stmt.op = "|=" ∨ stmt.op = "&=" ∨ stmt.op = "^=") := by
  have htail : ∀ t ∈ ts.tail.tail, tokBound t :=
    fun t ht => hts t ((List.tail_sublist ts).subset ((List.tail_sublist ts.tail).subset ht))
  unfold parseStatement at h
  split at h
  · injection h with h1
    injection h1 with ha hb
    subst ha
    subst hb
    exact ⟨List.Sublist.refl _, fun stmt hs => Option.noConfusion hs⟩
  · injection h with h1
    injection h1 with ha hb
    subst ha
    subst hb
    exact ⟨List.tail_sublist ts, fun stmt hs => Option.noConfusion hs⟩
  · rename_i reg heq
    split at h
    · obtain ⟨v, ts1, _, hso, hv, hsub⟩ := parseStatementRhs_ok htail h
      subst hso
      refine ⟨hsub.trans ((List.tail_sublist ts.tail).trans (List.tail_sublist ts)), ?_⟩
      intro stmt hs
      injection hs with hs
      subst hs
      exact ⟨hv, Or.inl rfl⟩
    · obtain ⟨v, ts1, _, hso, hv, hsub⟩ := parseStatementRhs_ok htail h
      subst hso
      refine ⟨hsub.trans ((List.tail_sublist ts.tail).trans (List.tail_sublist ts)), ?_⟩
      intro stmt hs
      injection hs with hs
      subst hs
      exact ⟨hv, Or.inr (Or.inl rfl)⟩
    · obtain ⟨v, ts1, _, hso, hv, hsub⟩ := parseStatementRhs_ok htail h
      subst hso
      refine ⟨hsub.trans ((List.tail_sublist ts.tail).trans (List.tail_sublist ts)), ?_⟩
      intro stmt hs
      injection hs with hs
      subst hs
      exact ⟨hv, Or.inr (Or.inr (Or.inl rfl))⟩
    · obtain ⟨v, ts1, _, hso, hv, hsub⟩ := parseStatementRhs_ok htail h
      subst hso
      refine ⟨hsub.trans ((List.tail_sublist ts.tail).trans (List.tail_sublist ts)), ?_⟩
      intro stmt hs
      injection hs with hs
      subst hs
      exact ⟨hv, Or.inr (Or.inr (Or.inr rfl))⟩
    · exact absurd h (by simp)
  · exact absurd h (by simp)

/-- A failed `parseStatement` carries a non-empty message. -/
theorem parseStatement_err {ts : List Token} {e : String}
    (h : parseStatement ts = .error e) : e ≠ "" := by
  unfold parseStatement at h
  split at h
  · exact absurd h (by simp)
  · exact absurd h (by simp)
  · rename_i reg heq
    have rhsErr : ∀ op : String, parseStatementRhs reg op ts.tail.tail = .error e → e ≠ "" := by
      intro op hr
      unfold parseStatementRhs at hr
      rcases pseq_err hr with h1 | ⟨w, ts1, _, h2⟩
      · exact parseP_err FUEL .or ts.tail.tail e h1
      · split at h2 <;> exact absurd h2 (by simp)
    split at h
    · exact rhsErr "=" h
    · exact rhsErr "|=" h
    · exact rhsErr "&=" h
    · exact rhsErr "^=" h
    · injection h with h1
      subst h1
      repeat' apply append_ne_empty_of_left
      decide
  · injection h with h1
    subst h1
    repeat' apply append_ne_empty_of_left
    decide

end Ev

/-! ## Evaluator-loop invariants -/

namespace Ev

/-- The statement loop only appends to `steps`, and the final register
state is exactly the initial one updated by the appended steps. -/
theorem evalGo_spec : ∀ n ts st stp, ∃ ext,
    (evalGo n ts st stp).steps = stp ++ ext ∧
    (evalGo n ts st stp).registerStates = applySteps st ext := by
  intro n
  induction n with
  | zero =>
    intro ts st stp
    exact ⟨[], by simp [evalGo], rfl⟩
  | succ n ih =>
    intro ts st stp
    cases hps : parseStatement ts with
    | error e =>
      simp only [evalGo, hps]
      exact ⟨[], by simp, rfl⟩
    | ok p =>
      obtain ⟨stmt?, ts1⟩ := p
      cases stmt? with
      | none =>
        simp only [evalGo, hps]
        split
        · exact ⟨[], by simp, rfl⟩
        · exact ih ts1 st stp
      | some stmt =>
        simp only [evalGo, hps]
        cases hap : applyOp stmt.op ((st stmt.register).getD 0) stmt.value with
        | none => exact ⟨[], by simp, rfl⟩
        | some after =>
          obtain ⟨ext, h1, h2⟩ := ih ts1 (setReg st stmt.register after)
            (stp ++ [⟨stmt.register, stmt.op, stmt.value, (st stmt.register).getD 0, after⟩])
          refine ⟨⟨stmt.register, stmt.op, stmt.value, (st stmt.register).getD 0, after⟩ :: ext,
            ?_, ?_⟩
          · rw [h1, List.append_assoc]
            rfl
          · rw [h2]
            rfl

/-- A failed evaluation carries a non-empty error message. -/
theorem evalGo_fail : ∀ n ts st stp, (evalGo n ts st stp).success = false →
    ∃ msg, (evalGo n ts st stp).error = some msg ∧ msg ≠ "" := by
  intro n
  induction n with
  | zero =>
    intro ts st stp h
    simp [evalGo] at h
  | succ n ih =>
    intro ts st stp
    cases hps : parseStatement ts with
    | error e =>
      simp only [evalGo, hps]
      intro _
      exact ⟨e, rfl, parseStatement_err hps⟩
    | ok p =>
      obtain ⟨stmt?, ts1⟩ := p
      cases stmt? with
      | none =>
        simp only [evalGo, hps]
        split
        · intro h
          simp at h
        · exact ih ts1 st stp
      | some stmt =>
        simp only [evalGo, hps]
        cases hap : applyOp stmt.op ((st stmt.register).getD 0) stmt.value with
        | none =>
          intro _
          refine ⟨"Unknown operator: " ++ stmt.op, rfl, ?_⟩
          exact append_ne_empty_of_left _ _ (by decide)
        | some after => exact ih ts1 _ _

theorem applyOp_lt {op : String} {b v a : Nat} (h : applyOp op b v = some a) : a < 256 := by
  unfold applyOp at h
  split_ifs at h <;>
    (injection h with h2
     subst h2
     exact Nat.mod_lt _ (by norm_num))

/-- Masking invariant of the loop: bounded tokens and a bounded incoming
state give bounded step records and a bounded final state. -/
theorem evalGo_mask : ∀ n ts st stp,
    (∀ t ∈ ts, tokBound t) →
    (∀ r v, st r = some v → v < 256) →
    (∀ s ∈ stp, s.exprValue < 256 ∧ s.before < 256 ∧ s.after < 256) →
    (∀ s ∈ (evalGo n ts st stp).steps, s.exprValue < 256 ∧ s.before < 256 ∧ s.after < 256) ∧
    (∀ r v, (evalGo n ts st stp).registerStates r = some v → v < 256) := by
  intro n
  induction n with
  | zero =>
    intro ts st stp _ hst hstp
    exact ⟨hstp, hst⟩
  | succ n ih =>
    intro ts st stp hts hst hstp
    cases hps : parseStatement ts with
    | error e =>
      simp only [evalGo, hps]
      exact ⟨hstp, hst⟩
    | ok p =>
      obtain ⟨stmt?, ts1⟩ := p
      obtain ⟨hsub, hstmt⟩ := parseStatement_ok hts hps
      have hts1 : ∀ t ∈ ts1, tokBound t := fun t ht => hts t (hsub.subset ht)
      cases stmt? with
      | none =>
        simp only [evalGo, hps]
        split
        · exact ⟨hstp, hst⟩
        · exact ih ts1 st stp hts1 hst hstp
      | some stmt =>
        obtain ⟨hv, _⟩ := hstmt stmt rfl
        have hbefore : (st stmt.register).getD 0 < 256 := by
          cases hb : st stmt.register with
          | none => simp
          | some w => simpa using hst _ w hb
        simp only [evalGo, hps]
        cases hap : applyOp stmt.op ((st stmt.register).getD 0) stmt.value with
        | none => exact ⟨hstp, hst⟩
        | some after =>
          apply ih ts1 (setReg st stmt.register after)
          · exact hts1
          · intro r v hr
            unfold setReg at hr
            split at hr
            · injection hr with hr
              subst hr
              exact applyOp_lt hap
            · exact hst r v hr
          · intro st2 hmem
            rcases List.mem_append.mp hmem with hm | hm
            · exact hstp st2 hm
            · rcases List.mem_singleton.mp hm with rfl
              exact ⟨hv, hbefore, applyOp_lt hap⟩

/-- Register entries survive evaluation (they may only be overwritten,
never removed). -/
theorem applySteps_pres : ∀ (steps : List Step) (st : RegState) (r : String) (v : Nat),
    st r = some v → ∃ w, applySteps st steps r = some w := by
  intro steps
  induction steps with
  | nil => exact fun st r v h => ⟨v, h⟩
  | cons s rest ih =>
    intro st r v h
    show ∃ w, applySteps (setReg st s.register s.after) rest r = some w
    by_cases hr : r = s.register
    · exact ih _ r s.after (by simp [setReg, hr])
    · exact ih _ r v (by simp [setReg, hr, h])

theorem evaluate_pres (code : String) (st : RegState) (r : String) (v : Nat)
    (h : st r = some v) : ∃ w, (evaluate code st).registerStates r = some w := by
  obtain ⟨ext, _, h2⟩ := evalGo_spec 100 (tokenize code) st []
  rw [show evaluate code st = evalGo 100 (tokenize code) st [] from rfl, h2]
  exact applySteps_pres ext st r v h

end Ev

/-! ## C4: failure semantics of `evaluate` -/

/-- C4: whenever `evaluate` fails, the error message is present and
non-empty, and the returned register states are exactly the initial
states updated by the committed steps — no other mutation. -/
theorem c4_failure_semantics (code : String) (init : Ev.RegState)
    (h : (Ev.evaluate code init).success = false) :
    (∃ msg, (Ev.evaluate code init).error = some msg ∧ msg ≠ "") ∧
    (Ev.evaluate code init).registerStates =
      Ev.applySteps init (Ev.evaluate code init).steps := by
  refine ⟨Ev.evalGo_fail 100 (Ev.tokenize code) init [] h, ?_⟩
  obtain ⟨ext, h1, h2⟩ := Ev.evalGo_spec 100 (Ev.tokenize code) init []
  show (Ev.evalGo 100 (Ev.tokenize code) init []).registerStates =
    Ev.applySteps init (Ev.evalGo 100 (Ev.tokenize code) init []).steps
  rw [h1, h2]
  simp

/-- Witness for C4 at the unknown-identifier input `PORTA = FOO;`. -/
theorem c4_witness :
    (Ev.evaluate "PORTA = FOO;" Ev.emptyStates).success = false ∧
    (Ev.evaluate "PORTA = FOO;" Ev.emptyStates).error = some "Unknown identifier: FOO" ∧
    "Unknown identifier: FOO" ≠ "" ∧
    (Ev.evaluate "PORTA = FOO;" Ev.emptyStates).registerStates =
      Ev.applySteps Ev.emptyStates (Ev.evaluate "PORTA = FOO;" Ev.emptyStates).steps := by
  have h := c4_failure_semantics "PORTA = FOO;" Ev.emptyStates rfl
  refine ⟨rfl, rfl, ?_, h.2⟩
  obtain ⟨msg, hm, hne⟩ := h.1
  have h0 : (Ev.evaluate "PORTA = FOO;" Ev.emptyStates).error =
      some "Unknown identifier: FOO" := rfl
  rw [h0] at hm
  injection hm with hm
  rw [hm]
  exact hne

/-! ## C5: the 8-bit masking invariant -/

/-- C5: from any initial register state whose values lie in [0,255],
every recorded step value (`before`, `after`, `exprValue`) and every
final register value lies in [0,255], for success and failure alike
(the statement holds for whatever `evaluate` returns). -/
theorem c5_masking_invariant (code : String) (init : Ev.RegState)
    (hinit : ∀ r v, init r = some v → v < 256) :
    (∀ s ∈ (Ev.evaluate code init).steps,
      s.exprValue < 256 ∧ s.before < 256 ∧ s.after < 256) ∧
    (∀ r v, (Ev.evaluate code init).registerStates r = some v → v < 256) :=
  Ev.evalGo_mask 100 (Ev.tokenize code) init [] (Ev.tokenize_bound code) hinit (by simp)

/-- Witness for C5: `X = 300;` stores the masked value `300 mod 256 = 44`,
and the invariant theorem applies at the empty initial state. -/
theorem c5_witness :
    (Ev.evaluate "X = 300;" Ev.emptyStates).registerStates "X" = some 44 ∧ 44 < 256 := by
  refine ⟨rfl, ?_⟩
  have h := c5_masking_invariant "X = 300;" Ev.emptyStates
    (fun r v hv => by simp [Ev.emptyStates] at hv)
  exact h.2 "X" 44 rfl

/-! ## C8: the answer checker -/

/-- C8: `checkAnswer` seeds the evaluator with exactly the single entry
`targetRegister -> initialValue`; it is correct exactly when evaluation
succeeds and the target register's final value equals `expectedValue`,
and on evaluator failure it reports `correct = false`, no observed
value, and the evaluator's error. -/
theorem c8_checkAnswer_spec (userCode targetRegister : String)
    (initialValue expectedValue : Nat) :
    ((Ev.checkAnswer userCode targetRegister initialValue expectedValue).correct = true ↔
      ((Ev.evaluate userCode (Ev.setReg Ev.emptyStates targetRegister initialValue)).success
          = true ∧
        (Ev.evaluate userCode
            (Ev.setReg Ev.emptyStates targetRegister initialValue)).registerStates
          targetRegister = some expectedValue)) ∧
    ((Ev.evaluate userCode (Ev.setReg Ev.emptyStates targetRegister initialValue)).success
        = false →
      (Ev.checkAnswer userCode targetRegister initialValue expectedValue).correct = false ∧
      (Ev.checkAnswer userCode targetRegister initialValue expectedValue).userResult = none ∧
      (Ev.checkAnswer userCode targetRegister initialValue expectedValue).error =
        (Ev.evaluate userCode
          (Ev.setReg Ev.emptyStates targetRegister initialValue)).error) := by
  have hseed : Ev.setReg Ev.emptyStates targetRegister initialValue targetRegister
      = some initialValue := by
    simp [Ev.setReg]
  cases hs : (Ev.evaluate userCode
      (Ev.setReg Ev.emptyStates targetRegister initialValue)).success with
  | false =>
    constructor
    · unfold Ev.checkAnswer
      simp [hs]
    · intro _
      unfold Ev.checkAnswer
      simp [hs]
  | true =>
    obtain ⟨w, hw⟩ := Ev.evaluate_pres userCode
      (Ev.setReg Ev.emptyStates targetRegister initialValue) targetRegister initialValue hseed
    constructor
    · unfold Ev.checkAnswer
      simp [hs, hw]
    · intro hfalse
      simp [hs] at hfalse

/-- Witness for C8 at a failing evaluation (`PORTA = FOO;`). -/
theorem c8_witness :
    (Ev.checkAnswer "PORTA = FOO;" "PORTA" 0 5).correct = false ∧
    (Ev.checkAnswer "PORTA = FOO;" "PORTA" 0 5).userResult = none ∧
    (Ev.checkAnswer "PORTA = FOO;" "PORTA" 0 5).error = some "Unknown identifier: FOO" := by
  have h := (c8_checkAnswer_spec "PORTA = FOO;" "PORTA" 0 5).2 rfl
  refine ⟨h.1, h.2.1, ?_⟩
  rw [h.2.2]
  rfl

/-! ## Tokenizer composition: list and character-class helpers -/

theorem string_mk_data (s : String) : String.mk s.data = s := by
  cases s
  rfl

theorem takeWhile_all (p : Char → Bool) :
    ∀ xs : List Char, (∀ x ∈ xs, p x = true) → xs.takeWhile p = xs := by
  intro xs
  induction xs with
  | nil => intro _; rfl
  | cons a l ih =>
    intro h
    rw [List.takeWhile_cons, h a (List.mem_cons_self _ _)]
    simp [ih (fun x hx => h x (List.mem_cons_of_mem _ hx))]

theorem dropWhile_all (p : Char → Bool) :
    ∀ xs : List Char, (∀ x ∈ xs, p x = true) → xs.dropWhile p = [] := by
  intro xs
  induction xs with
  | nil => intro _; rfl
  | cons a l ih =>
    intro h
    rw [List.dropWhile_cons, h a (List.mem_cons_self _ _)]
    simp [ih (fun x hx => h x (List.mem_cons_of_mem _ hx))]

theorem takeWhile_append_stop (p : Char → Bool) (xs rest : List Char)
    (hall : ∀ x ∈ xs, p x = true) (hrest : ∀ x, rest.head? = some x → p x = false) :
    (xs ++ rest).takeWhile p = xs := by
  cases rest with
  | nil =>
    rw [List.append_nil]
    exact takeWhile_all p xs hall
  | cons r rest2 =>
    induction xs with
    | nil =>
      simp [List.takeWhile_cons, hrest r rfl]
    | cons a l ih =>
      rw [List.cons_append, List.takeWhile_cons]
      simp [hall a (List.mem_cons_self _ _),
        ih (fun x hx => hall x (List.mem_cons_of_mem _ hx))]

theorem dropWhile_append_stop (p : Char → Bool) (xs rest : List Char)
    (hall : ∀ x ∈ xs, p x = true) (hrest : ∀ x, rest.head? = some x → p x = false) :
    (xs ++ rest).dropWhile p = rest := by
  cases rest with
  | nil =>
    rw [List.append_nil]
    exact dropWhile_all p xs hall
  | cons r rest2 =>
    induction xs with
    | nil =>
      simp [List.dropWhile_cons, hrest r rfl]
    | cons a l ih =>
      rw [List.cons_append, List.dropWhile_cons]
      simp [hall a (List.mem_cons_self _ _),
        ih (fun x hx => hall x (List.mem_cons_of_mem _ hx))]

theorem takeWhile_append_semi (p : Char → Bool) (hp : p ';' = false) :
    ∀ xs : List Char, (xs ++ [';']).takeWhile p = xs.takeWhile p := by
  intro xs
  induction xs with
  | nil => simp [List.takeWhile_cons, hp]
  | cons a l ih =>
    rw [List.cons_append, List.takeWhile_cons, List.takeWhile_cons]
    cases p a <;> simp [ih]

theorem dropWhile_append_semi (p : Char → Bool) (hp : p ';' = false) :
    ∀ xs : List Char, (xs ++ [';']).dropWhile p = xs.dropWhile p ++ [';'] := by
  intro xs
  induction xs with
  | nil => simp [List.dropWhile_cons, hp]
  | cons a l ih =>
    rw [List.cons_append, List.dropWhile_cons, List.dropWhile_cons]
    cases p a <;> simp [ih]

/-- An untrimmable list: non-whitespace first and last characters. -/
theorem jsTrim_id (l : List Char)
    (h1 : ∀ c, l.head? = some c → isWsChar c = false)
    (h2 : ∀ c, l.getLast? = some c → isWsChar c = false) :
    jsTrim l = l := by
  unfold jsTrim dropTrailWs dropLeadWs
  have hl : l.dropWhile isWsChar = l := by
    cases l with
    | nil => rfl
    | cons a as => simp [List.dropWhile_cons, h1 a rfl]
  rw [hl]
  cases hrev : l.reverse with
  | nil =>
    have : l = [] := by simpa using congrArg List.reverse hrev
    subst this
    rfl
  | cons b bs =>
    have hb : l.getLast? = some b := by
      have hlb : l = bs.reverse ++ [b] := by
        have := congrArg List.reverse hrev
        simpa using this
      rw [hlb, List.getLast?_concat]
    rw [List.dropWhile_cons, h2 b hb]
    simp only [Bool.false_eq_true, if_false]
    rw [← hrev, List.reverse_reverse]

/-! ## Character-class facts -/

theorem identStart_ne (c : Char) (h : isIdentStartChar c = true) :
    c ≠ ';' ∧ c ≠ '|' ∧ c ≠ '&' ∧ c ≠ '^' ∧ c ≠ '<' ∧ c ≠ '>' ∧ c ≠ '=' ∧ c ≠ '~' ∧
      c ≠ '(' ∧ c ≠ ')' := by
  refine ⟨?_, ?_, ?_, ?_, ?_, ?_, ?_, ?_, ?_, ?_⟩ <;>
    (intro heq; subst heq; exact absurd h (by decide))

theorem identStart_not_ws (c : Char) (h : isIdentStartChar c = true) : isWsChar c = false := by
  cases hw : isWsChar c
  · rfl
  · exfalso
    simp [isWsChar] at hw
    rcases hw with (((((rfl | rfl) | rfl) | rfl) | rfl) | rfl) <;> exact absurd h (by decide)

theorem identStart_not_digit (c : Char) (h : isIdentStartChar c = true) :
    c.isDigit = false := by
  have h2 : c.isAlpha = true ∨ c = '_' := by simpa [isIdentStartChar] using h
  rcases h2 with ha | rfl
  · cases hd : c.isDigit
    · rfl
    · exfalso
      simp [Char.isDigit] at hd
      simp [Char.isAlpha, Char.isUpper, Char.isLower] at ha
      obtain ⟨hd1, hd2⟩ : 48 ≤ c.toNat ∧ c.toNat ≤ 57 := hd
      rcases ha with ⟨h1, h2⟩ | ⟨h1, h2⟩
      · obtain ⟨g1, g2⟩ : 65 ≤ c.toNat ∧ c.toNat ≤ 90 := ⟨h1, h2⟩
        omega
      · obtain ⟨g1, g2⟩ : 97 ≤ c.toNat ∧ c.toNat ≤ 122 := ⟨h1, h2⟩
        omega
  · decide

theorem digit_ne (c : Char) (h : c.isDigit = true) :
    c ≠ ';' ∧ c ≠ '|' ∧ c ≠ '&' ∧ c ≠ '^' ∧ c ≠ '<' ∧ c ≠ '>' ∧ c ≠ '=' ∧ c ≠ '~' ∧
      c ≠ '(' ∧ c ≠ ')' := by
  refine ⟨?_, ?_, ?_, ?_, ?_, ?_, ?_, ?_, ?_, ?_⟩ <;>
    (intro heq; subst heq; exact absurd h (by decide))

theorem digit_not_ws (c : Char) (h : c.isDigit = true) : isWsChar c = false := by
  cases hw : isWsChar c
  · rfl
  · exfalso
    simp [isWsChar] at hw
    rcases hw with (((((rfl | rfl) | rfl) | rfl) | rfl) | rfl) <;> exact absurd h (by decide)

theorem digit_isIdentChar (c : Char) (h : c.isDigit = true) : isIdentChar c = true := by
  simp [isIdentChar, Char.isAlphanum, h]

theorem identStart_isIdentChar (c : Char) (h : isIdentStartChar c = true) :
    isIdentChar c = true := by
  have h2 : c.isAlpha = true ∨ c = '_' := by simpa [isIdentStartChar] using h
  rcases h2 with ha | rfl
  · simp [isIdentChar, Char.isAlphanum, ha]
  · decide

/-! ## Tokenizer: symbolic single-token lemmas -/

namespace Ev

theorem tokStep_ident (c : Char) (id rest : List Char)
    (hc : isIdentStartChar c = true)
    (hid : ∀ x ∈ id, isIdentChar x = true)
    (hrest : ∀ x, rest.head? = some x → isIdentChar x = false) :
    tokStep c (id ++ rest) = (some (Token.IDENTIFIER (String.mk (c :: id))), rest) := by
  obtain ⟨h1, h2, h3, h4, h5, h6, h7, h8, h9, h10⟩ := identStart_ne c hc
  have hws := identStart_not_ws c hc
  have hdig := identStart_not_digit c hc
  simp [tokStep, hws, hdig, hc, h1, h2, h3, h4, h5, h6, h7, h8, h9, h10,
    takeWhile_append_stop isIdentChar id rest hid hrest,
    dropWhile_append_stop isIdentChar id rest hid hrest]

theorem tokStep_num (c : Char) (ds rest : List Char)
    (hc : c.isDigit = true)
    (hds : ∀ x ∈ ds, x.isDigit = true)
    (hrest : ∀ x, rest.head? = some x →
      x.isDigit = false ∧ x ≠ 'x' ∧ x ≠ 'X' ∧ x ≠ 'b' ∧ x ≠ 'B') :
    tokStep c (ds ++ rest) =
      (some (Token.NUMBER (String.mk (c :: ds))
        (foldDigits 10 digitVal (c :: ds) % 256)), rest) := by
  obtain ⟨h1, h2, h3, h4, h5, h6, h7, h8, h9, h10⟩ := digit_ne c hc
  have hws := digit_not_ws c hc
  have kd : ∀ y, ds.head? = some y → y.isDigit = true := by
    intro y hy
    cases ds with
    | nil => simp at hy
    | cons d ds2 =>
      simp only [List.head?_cons, Option.some.injEq] at hy
      exact hy ▸ hds d (List.mem_cons_self _ _)
  have kdx : ds.head? ≠ some 'x' := fun h => absurd (kd 'x' h) (by decide)
  have kdX : ds.head? ≠ some 'X' := fun h => absurd (kd 'X' h) (by decide)
  have kdb : ds.head? ≠ some 'b' := fun h => absurd (kd 'b' h) (by decide)
  have kdB : ds.head? ≠ some 'B' := fun h => absurd (kd 'B' h) (by decide)
  have krx : rest.head? ≠ some 'x' := fun h => (hrest 'x' h).2.1 rfl
  have krX : rest.head? ≠ some 'X' := fun h => (hrest 'X' h).2.2.1 rfl
  have krb : rest.head? ≠ some 'b' := fun h => (hrest 'b' h).2.2.2.1 rfl
  have krB : rest.head? ≠ some 'B' := fun h => (hrest 'B' h).2.2.2.2 rfl
  have hrd : ∀ x, rest.head? = some x → Char.isDigit x = false := fun x hx => (hrest x hx).1
  simp [tokStep, hws, hc, h1, h2, h3, h4, h5, h6, h7, h8, h9, h10,
    kdx, kdX, kdb, kdB, krx, krX, krb, krB,
    takeWhile_append_stop Char.isDigit ds rest hds hrd,
    dropWhile_append_stop Char.isDigit ds rest hds hrd]

theorem tokenizeCore_ident (c : Char) (id rest : List Char)
    (hc : isIdentStartChar c = true)
    (hid : ∀ x ∈ id, isIdentChar x = true)
    (hrest : ∀ x, rest.head? = some x → isIdentChar x = false) :
    tokenizeCore (c :: (id ++ rest)) =
      Token.IDENTIFIER (String.mk (c :: id)) :: tokenizeCore rest := by
  rw [tokenizeCore_cons, tokStep_ident c id rest hc hid hrest]

theorem tokenizeCore_num (c : Char) (ds rest : List Char)
    (hc : c.isDigit = true)
    (hds : ∀ x ∈ ds, x.isDigit = true)
    (hrest : ∀ x, rest.head? = some x →
      x.isDigit = false ∧ x ≠ 'x' ∧ x ≠ 'X' ∧ x ≠ 'b' ∧ x ≠ 'B') :
    tokenizeCore (c :: (ds ++ rest)) =
      Token.NUMBER (String.mk (c :: ds)) (foldDigits 10 digitVal (c :: ds) % 256)
        :: tokenizeCore rest := by
  rw [tokenizeCore_cons, tokStep_num c ds rest hc hds hrest]

theorem tokenizeCore_ws (c : Char) (rest : List Char) (hc : isWsChar c = true) :
    tokenizeCore (c :: rest) = tokenizeCore rest := by
  rw [tokenizeCore_cons]
  simp [tokStep, hc]

theorem tokenizeCore_semi (rest : List Char) :
    tokenizeCore (';' :: rest) = Token.SEMICOLON :: tokenizeCore rest := by
  rw [tokenizeCore_cons]
  rfl

theorem tokenizeCore_assign (rest : List Char) :
    tokenizeCore ('=' :: rest) = Token.ASSIGN :: tokenizeCore rest := by
  rw [tokenizeCore_cons]
  rfl

theorem tokenizeCore_lparen (rest : List Char) :
    tokenizeCore ('(' :: rest) = Token.LPAREN :: tokenizeCore rest := by
  rw [tokenizeCore_cons]
  rfl

theorem tokenizeCore_rparen (rest : List Char) :
    tokenizeCore (')' :: rest) = Token.RPAREN :: tokenizeCore rest := by
  rw [tokenizeCore_cons]
  rfl

theorem tokenizeCore_orassign (rest : List Char) :
    tokenizeCore ('|' :: '=' :: rest) = Token.OR_ASSIGN :: tokenizeCore rest := by
  rw [tokenizeCore_cons]
  rfl

theorem tokenizeCore_xorassign (rest : List Char) :
    tokenizeCore ('^' :: '=' :: rest) = Token.XOR_ASSIGN :: tokenizeCore rest := by
  rw [tokenizeCore_cons]
  rfl

theorem tokenizeCore_lshift (rest : List Char) :
    tokenizeCore ('<' :: '<' :: rest) = Token.LSHIFT :: tokenizeCore rest := by
  rw [tokenizeCore_cons]
  rfl

theorem tokenizeCore_rshift (rest : List Char) :
    tokenizeCore ('>' :: '>' :: rest) = Token.RSHIFT :: tokenizeCore rest := by
  rw [tokenizeCore_cons]
  rfl

theorem takeWhile_cons_append_semi (p : Char → Bool) (hp : p ';' = false)
    (d : Char) (xs : List Char) :
    List.takeWhile p (d :: (xs ++ [';'])) = List.takeWhile p (d :: xs) := by
  rw [← List.cons_append]
  exact takeWhile_append_semi p hp (d :: xs)

theorem dropWhile_cons_append_semi (p : Char → Bool) (hp : p ';' = false)
    (d : Char) (xs : List Char) :
    List.dropWhile p (d :: (xs ++ [';'])) = List.dropWhile p (d :: xs) ++ [';'] := by
  rw [← List.cons_append]
  exact dropWhile_append_semi p hp (d :: xs)

/-- Appending a semicolon to the input does not change how the first
loop iteration tokenizes: the semicolon cannot extend any token. -/
theorem tokStep_append_semi (c : Char) (cs : List Char) :
    tokStep c (cs ++ [';']) = ((tokStep c cs).1, (tokStep c cs).2 ++ [';']) := by
  cases cs with
  | nil =>
    simp [tokStep, (by decide : isHexDigitCh ';' = false),
      (by decide : isBinDigitCh ';' = false), (by decide : isIdentChar ';' = false),
      (by decide : Char.isDigit ';' = false),
      Prod.ext_iff, apply_ite Prod.fst, apply_ite Prod.snd]
  | cons d cs2 =>
    simp [tokStep, takeWhile_append_semi Char.isDigit (by decide),
      takeWhile_append_semi isHexDigitCh (by decide),
      takeWhile_append_semi isBinDigitCh (by decide),
      takeWhile_append_semi isIdentChar (by decide),
      dropWhile_append_semi Char.isDigit (by decide),
      dropWhile_append_semi isHexDigitCh (by decide),
      dropWhile_append_semi isBinDigitCh (by decide),
      dropWhile_append_semi isIdentChar (by decide),
      takeWhile_cons_append_semi Char.isDigit (by decide),
      takeWhile_cons_append_semi isIdentChar (by decide),
      dropWhile_cons_append_semi Char.isDigit (by decide),
      dropWhile_cons_append_semi isIdentChar (by decide),
      Prod.ext_iff, apply_ite Prod.fst, apply_ite Prod.snd,
      apply_ite (fun l : List Char => l ++ [';'])]

/-- The scan of `a ++ ";"` is the scan of `a` followed by a semicolon
token: the boundary semicolon never merges with a token of `a`. -/
theorem tokenizeCore_append_semi (a : List Char) :
    tokenizeCore (a ++ [';']) = tokenizeCore a ++ [Token.SEMICOLON] := by
  suffices H : ∀ n (a : List Char), a.length ≤ n →
      tokenizeCore (a ++ [';']) = tokenizeCore a ++ [Token.SEMICOLON] from
    H a.length a (Nat.le_refl _)
  intro n
  induction n with
  | zero =>
    intro a ha
    have : a = [] := List.length_eq_zero.mp (Nat.le_zero.mp ha)
    subst this
    rfl
  | succ n ih =>
    intro a ha
    cases a with
    | nil => rfl
    | cons c cs =>
      rw [List.cons_append, tokenizeCore_cons, tokenizeCore_cons, tokStep_append_semi]
      rcases hs : tokStep c cs with ⟨t0, rest⟩
      have hr : rest.length ≤ cs.length := by
        have h2 := tokStep_rest_le c cs
        rw [hs] at h2
        exact h2
      have hrec := ih rest (Nat.le_trans hr (by simpa using ha))
      cases t0 with
      | none => simpa using hrec
      | some t => simpa using congrArg (List.cons t) hrec

/-- A string that tokenizes as a single identifier: an identifier-start
character followed by identifier characters. -/
def validIdent (s : String) : Prop :=
  ∃ c id, s.data = c :: id ∧ isIdentStartChar c = true ∧ ∀ x ∈ id, isIdentChar x = true

/-- A string that is the decimal numeral of `n`: non-empty, all digits,
and folding its digits base 10 yields `n`. -/
def decDenotes (s : String) (n : Nat) : Prop :=
  s.data ≠ [] ∧ (∀ c ∈ s.data, c.isDigit = true) ∧ foldDigits 10 digitVal s.data = n

/-- Computing the parse of `NUMBER << NUMBER` followed by a semicolon,
with twelve fuel units of headroom. -/
theorem parseP_num_lshift (f : Nat) (s1 s2 : String) (a k : Nat) (rest : List Token) :
    parseP (f + 12) PPhase.or (Token.NUMBER s1 a :: Token.LSHIFT :: Token.NUMBER s2 k ::
      Token.SEMICOLON :: rest) = .ok (jsShl8 a k, Token.SEMICOLON :: rest) := by
  simp [parseP, pbind, peekT]

/-- Computing the parse of `NUMBER >> NUMBER` followed by a semicolon. -/
theorem parseP_num_rshift (f : Nat) (s1 s2 : String) (a k : Nat) (rest : List Token) :
    parseP (f + 12) PPhase.or (Token.NUMBER s1 a :: Token.RSHIFT :: Token.NUMBER s2 k ::
      Token.SEMICOLON :: rest) = .ok (jsShr8 a k, Token.SEMICOLON :: rest) := by
  simp [parseP, pbind, peekT]

/-- Computing the parse of `( NUMBER << NUMBER )` followed by a
semicolon, with sixteen fuel units of headroom. -/
theorem parseP_paren_lshift (f : Nat) (s1 s2 : String) (a k : Nat) (rest : List Token) :
    parseP (f + 16) PPhase.or (Token.LPAREN :: Token.NUMBER s1 a :: Token.LSHIFT ::
      Token.NUMBER s2 k :: Token.RPAREN :: Token.SEMICOLON :: rest)
      = .ok (jsShl8 a k, Token.SEMICOLON :: rest) := by
  simp [parseP, pbind, peekT]

/-- The token stream of `X = sa << sk;` for decimal numerals `sa`, `sk`. -/
theorem tokens_shift_l (a k : Nat) (sa sk : String)
    (hsa : decDenotes sa a) (hsk : decDenotes sk k) :
    tokenize ("X = " ++ sa ++ " << " ++ sk ++ ";") =
      [Token.IDENTIFIER "X", Token.ASSIGN, Token.NUMBER sa (a % 256), Token.LSHIFT,
        Token.NUMBER sk (k % 256), Token.SEMICOLON, Token.EOF] := by
  obtain ⟨hne_a, hdig_a, hval_a⟩ := hsa
  obtain ⟨hne_k, hdig_k, hval_k⟩ := hsk
  obtain ⟨ca, dsa, hca⟩ : ∃ c ds, sa.data = c :: ds := by
    cases h : sa.data with
    | nil => exact absurd h hne_a
    | cons c ds => exact ⟨c, ds, rfl⟩
  obtain ⟨ck, dsk, hck⟩ : ∃ c ds, sk.data = c :: ds := by
    cases h : sk.data with
    | nil => exact absurd h hne_k
    | cons c ds => exact ⟨c, ds, rfl⟩
  have hdata : ("X = " ++ sa ++ " << " ++ sk ++ ";").data
      = 'X' :: ' ' :: '=' :: ' ' ::
          (sa.data ++ (' ' :: '<' :: '<' :: ' ' :: (sk.data ++ [';']))) := by
    simp only [string_data_append, List.append_assoc]
    rfl
  have htrim : jsTrim ("X = " ++ sa ++ " << " ++ sk ++ ";").data
      = ("X = " ++ sa ++ " << " ++ sk ++ ";").data := by
    apply jsTrim_id
    · intro c hc
      rw [hdata] at hc
      simp only [List.head?_cons, Option.some.injEq] at hc
      subst hc
      decide
    · intro c hc
      rw [hdata] at hc
      have h2 : ('X' :: ' ' :: '=' :: ' ' ::
            (sa.data ++ (' ' :: '<' :: '<' :: ' ' :: (sk.data ++ [';']))))
          = ('X' :: ' ' :: '=' :: ' ' ::
              (sa.data ++ (' ' :: '<' :: '<' :: ' ' :: sk.data))) ++ [';'] := by
        simp
      rw [h2, List.getLast?_concat] at hc
      injection hc with h3
      subst h3
      decide
  have hid : tokenizeCore ('X' :: ' ' :: '=' :: ' ' ::
        (sa.data ++ (' ' :: '<' :: '<' :: ' ' :: (sk.data ++ [';']))))
      = Token.IDENTIFIER "X" :: tokenizeCore (' ' :: '=' :: ' ' ::
          (sa.data ++ (' ' :: '<' :: '<' :: ' ' :: (sk.data ++ [';'])))) := by
    have h := tokenizeCore_ident 'X' []
        (' ' :: '=' :: ' ' :: (sa.data ++ (' ' :: '<' :: '<' :: ' ' :: (sk.data ++ [';']))))
        (by decide) (by intro x hx; simp at hx)
        (by intro x hx; simp only [List.head?_cons, Option.some.injEq] at hx; subst hx; decide)
    simpa using h
  rw [hca] at hdig_a
  rw [hck] at hdig_k
  have hnum_a : tokenizeCore ((ca :: dsa) ++ (' ' :: '<' :: '<' :: ' ' :: (sk.data ++ [';'])))
      = Token.NUMBER sa (a % 256) :: tokenizeCore (' ' :: '<' :: '<' :: ' ' ::
          (sk.data ++ [';'])) := by
    rw [List.cons_append]
    have h := tokenizeCore_num ca dsa (' ' :: '<' :: '<' :: ' ' :: (sk.data ++ [';']))
        (hdig_a ca (List.mem_cons_self _ _))
        (fun x hx => hdig_a x (List.mem_cons_of_mem _ hx))
        (by intro x hx; simp only [List.head?_cons, Option.some.injEq] at hx; subst hx; decide)
    rw [h]
    have hmk : String.mk (ca :: dsa) = sa := by
      rw [← hca]
    have hfold : foldDigits 10 digitVal (ca :: dsa) = a := by
      rw [← hca]
      exact hval_a
    rw [hmk, hfold]
  have hnum_k : tokenizeCore ((ck :: dsk) ++ [';'])
      = Token.NUMBER sk (k % 256) :: tokenizeCore [';'] := by
    rw [List.cons_append]
    have h := tokenizeCore_num ck dsk [';']
        (hdig_k ck (List.mem_cons_self _ _))
        (fun x hx => hdig_k x (List.mem_cons_of_mem _ hx))
        (by intro x hx; simp only [List.head?_cons, Option.some.injEq] at hx; subst hx; decide)
    rw [h]
    have hmk : String.mk (ck :: dsk) = sk := by
      rw [← hck]
    have hfold : foldDigits 10 digitVal (ck :: dsk) = k := by
      rw [← hck]
      exact hval_k
    rw [hmk, hfold]
  rw [tokenize, htrim, hdata, hid, tokenizeCore_ws ' ' _ (by decide), tokenizeCore_assign,
    tokenizeCore_ws ' ' _ (by decide), hca, hnum_a,
    tokenizeCore_ws ' ' _ (by decide), tokenizeCore_lshift,
    tokenizeCore_ws ' ' _ (by decide), hck, hnum_k, tokenizeCore_semi]
  rfl

/-- The token stream of `X = sa >> sk;` for decimal numerals `sa`, `sk`. -/
theorem tokens_shift_r (a k : Nat) (sa sk : String)
    (hsa : decDenotes sa a) (hsk : decDenotes sk k) :
    tokenize ("X = " ++ sa ++ " >> " ++ sk ++ ";") =
      [Token.IDENTIFIER "X", Token.ASSIGN, Token.NUMBER sa (a % 256), Token.RSHIFT,
        Token.NUMBER sk (k % 256), Token.SEMICOLON, Token.EOF] := by
  obtain ⟨hne_a, hdig_a, hval_a⟩ := hsa
  obtain ⟨hne_k, hdig_k, hval_k⟩ := hsk
  obtain ⟨ca, dsa, hca⟩ : ∃ c ds, sa.data = c :: ds := by
    cases h : sa.data with
    | nil => exact absurd h hne_a
    | cons c ds => exact ⟨c, ds, rfl⟩
  obtain ⟨ck, dsk, hck⟩ : ∃ c ds, sk.data = c :: ds := by
    cases h : sk.data with
    | nil => exact absurd h hne_k
    | cons c ds => exact ⟨c, ds, rfl⟩
  have hdata : ("X = " ++ sa ++ " >> " ++ sk ++ ";").data
      = 'X' :: ' ' :: '=' :: ' ' ::
          (sa.data ++ (' ' :: '>' :: '>' :: ' ' :: (sk.data ++ [';']))) := by
    simp only [string_data_append, List.append_assoc]
    rfl
  have htrim : jsTrim ("X = " ++ sa ++ " >> " ++ sk ++ ";").data
      = ("X = " ++ sa ++ " >> " ++ sk ++ ";").data := by
    apply jsTrim_id
    · intro c hc
      rw [hdata] at hc
      simp only [List.head?_cons, Option.some.injEq] at hc
      subst hc
      decide
    · intro c hc
      rw [hdata] at hc
      have h2 : ('X' :: ' ' :: '=' :: ' ' ::
            (sa.data ++ (' ' :: '>' :: '>' :: ' ' :: (sk.data ++ [';']))))
          = ('X' :: ' ' :: '=' :: ' ' ::
              (sa.data ++ (' ' :: '>' :: '>' :: ' ' :: sk.data))) ++ [';'] := by
        simp
      rw [h2, List.getLast?_concat] at hc
      injection hc with h3
      subst h3
      decide
  have hid : tokenizeCore ('X' :: ' ' :: '=' :: ' ' ::
        (sa.data ++ (' ' :: '>' :: '>' :: ' ' :: (sk.data ++ [';']))))
      = Token.IDENTIFIER "X" :: tokenizeCore (' ' :: '=' :: ' ' ::
          (sa.data ++ (' ' :: '>' :: '>' :: ' ' :: (sk.data ++ [';'])))) := by
    have h := tokenizeCore_ident 'X' []
        (' ' :: '=' :: ' ' :: (sa.data ++ (' ' :: '>' :: '>' :: ' ' :: (sk.data ++ [';']))))
        (by decide) (by intro x hx; simp at hx)
        (by intro x hx; simp only [List.head?_cons, Option.some.injEq] at hx; subst hx; decide)
    simpa using h
  rw [hca] at hdig_a
  rw [hck] at hdig_k
  have hnum_a : tokenizeCore ((ca :: dsa) ++ (' ' :: '>' :: '>' :: ' ' :: (sk.data ++ [';'])))
      = Token.NUMBER sa (a % 256) :: tokenizeCore (' ' :: '>' :: '>' :: ' ' ::
          (sk.data ++ [';'])) := by
    rw [List.cons_append]
    have h := tokenizeCore_num ca dsa (' ' :: '>' :: '>' :: ' ' :: (sk.data ++ [';']))
        (hdig_a ca (List.mem_cons_self _ _))
        (fun x hx => hdig_a x (List.mem_cons_of_mem _ hx))
        (by intro x hx; simp only [List.head?_cons, Option.some.injEq] at hx; subst hx; decide)
    rw [h]
    have hmk : String.mk (ca :: dsa) = sa := by
      rw [← hca]
    have hfold : foldDigits 10 digitVal (ca :: dsa) = a := by
      rw [← hca]
      exact hval_a
    rw [hmk, hfold]
  have hnum_k : tokenizeCore ((ck :: dsk) ++ [';'])
      = Token.NUMBER sk (k % 256) :: tokenizeCore [';'] := by
    rw [List.cons_append]
    have h := tokenizeCore_num ck dsk [';']
        (hdig_k ck (List.mem_cons_self _ _))
        (fun x hx => hdig_k x (List.mem_cons_of_mem _ hx))
        (by intro x hx; simp only [List.head?_cons, Option.some.injEq] at hx; subst hx; decide)
    rw [h]
    have hmk : String.mk (ck :: dsk) = sk := by
      rw [← hck]
    have hfold : foldDigits 10 digitVal (ck :: dsk) = k := by
      rw [← hck]
      exact hval_k
    rw [hmk, hfold]
  rw [tokenize, htrim, hdata, hid, tokenizeCore_ws ' ' _ (by decide), tokenizeCore_assign,
    tokenizeCore_ws ' ' _ (by decide), hca, hnum_a,
    tokenizeCore_ws ' ' _ (by decide), tokenizeCore_rshift,
    tokenizeCore_ws ' ' _ (by decide), hck, hnum_k, tokenizeCore_semi]
  rfl

/-- If the whole program tokenizes as `R = rhs` and the right-hand side
parses consuming everything up to the final semicolon, then `evaluate`
runs exactly one assignment statement and stops at EOF. -/
theorem evaluate_assign_stmt (code : String) (init : RegState) (R : String) (v : Nat)
    (rhs : List Token)
    (htok : tokenize code = Token.IDENTIFIER R :: Token.ASSIGN :: rhs)
    (hrhs : parseExpressionE rhs = .ok (v, [Token.SEMICOLON, Token.EOF])) :
    evaluate code init = ⟨true, setReg init R (v % 256), none,
      [⟨R, "=", v, (init R).getD 0, v % 256⟩]⟩ := by
  have hps : parseStatement (Token.IDENTIFIER R :: Token.ASSIGN :: rhs)
      = .ok (some ⟨R, v, "="⟩, [Token.EOF]) := by
    simp only [parseStatement, peekT, List.tail_cons, parseStatementRhs, hrhs, pseq]
  rw [evaluate, htok]
  simp only [evalGo, hps, peekT,
    (show ∀ b, applyOp "=" b v = some (v % 256) from fun _ => rfl),
    (show parseStatement [Token.EOF] = Except.ok (none, [Token.EOF]) from rfl),
    List.nil_append]

end Ev

/-- C3 (amended): for decimal numerals `sa`, `sk` denoting `a`, `k` in
[0,255], evaluating `X = sa << sk;` from any initial state succeeds and
leaves X = (a * 2 ^ (k mod 32)) mod 256, and `X = sa >> sk;` leaves
X = (a / 2 ^ (k mod 32)) mod 256: JS takes shift counts modulo 32, so
the claim's formula `(a * 2^k) mod 256` holds only for k < 32. -/
theorem c3_amended (a k : Nat) (sa sk : String) (init : Ev.RegState)
    (hsa : Ev.decDenotes sa a) (hsk : Ev.decDenotes sk k) (ha : a < 256) (hk : k < 256) :
    ((Ev.evaluate ("X = " ++ sa ++ " << " ++ sk ++ ";") init).success = true ∧
      (Ev.evaluate ("X = " ++ sa ++ " << " ++ sk ++ ";") init).registerStates "X"
        = some (a * 2 ^ (k % 32) % 256)) ∧
    ((Ev.evaluate ("X = " ++ sa ++ " >> " ++ sk ++ ";") init).success = true ∧
      (Ev.evaluate ("X = " ++ sa ++ " >> " ++ sk ++ ";") init).registerStates "X"
        = some (a / 2 ^ (k % 32) % 256)) := by
  have hmod_a : a % 256 = a := Nat.mod_eq_of_lt ha
  have hmod_k : k % 256 = k := Nat.mod_eq_of_lt hk
  constructor
  · have htok := Ev.tokens_shift_l a k sa sk hsa hsk
    rw [hmod_a, hmod_k] at htok
    have hrhs : Ev.parseExpressionE [Ev.Token.NUMBER sa a, Ev.Token.LSHIFT,
        Ev.Token.NUMBER sk k, Ev.Token.SEMICOLON, Ev.Token.EOF]
        = .ok (jsShl8 a k, [Ev.Token.SEMICOLON, Ev.Token.EOF]) := by
      rw [Ev.parseExpressionE, Ev.parseOr, show Ev.FUEL = 999988 + 12 from rfl]
      exact Ev.parseP_num_lshift 999988 sa sk a k [Ev.Token.EOF]
    have hres := Ev.evaluate_assign_stmt _ init "X" (jsShl8 a k) _ htok hrhs
    rw [hres]
    refine ⟨rfl, ?_⟩
    have h2 : jsShl8 a k % 256 = a * 2 ^ (k % 32) % 256 :=
      Nat.mod_mod_of_dvd (a * 2 ^ (k % 32)) (dvd_refl 256)
    simp [Ev.setReg, h2]
  · have htok := Ev.tokens_shift_r a k sa sk hsa hsk
    rw [hmod_a, hmod_k] at htok
    have hrhs : Ev.parseExpressionE [Ev.Token.NUMBER sa a, Ev.Token.RSHIFT,
        Ev.Token.NUMBER sk k, Ev.Token.SEMICOLON, Ev.Token.EOF]
        = .ok (jsShr8 a k, [Ev.Token.SEMICOLON, Ev.Token.EOF]) := by
      rw [Ev.parseExpressionE, Ev.parseOr, show Ev.FUEL = 999988 + 12 from rfl]
      exact Ev.parseP_num_rshift 999988 sa sk a k [Ev.Token.EOF]
    have hres := Ev.evaluate_assign_stmt _ init "X" (jsShr8 a k) _ htok hrhs
    rw [hres]
    refine ⟨rfl, ?_⟩
    have h2 : jsShr8 a k % 256 = a / 2 ^ (k % 32) % 256 :=
      Nat.mod_mod_of_dvd (a / 2 ^ (k % 32)) (dvd_refl 256)
    simp [Ev.setReg, h2]

/-- Witness for `c3_amended` at a = 3, k = 10: the hypotheses hold and the
final X values are 3 * 2^10 mod 256 = 0 and 3 / 2^10 mod 256 = 0. -/
theorem c3_witness :
    Ev.decDenotes "3" 3 ∧ Ev.decDenotes "10" 10 ∧ (3 : Nat) < 256 ∧ (10 : Nat) < 256 ∧
    (((Ev.evaluate ("X = " ++ "3" ++ " << " ++ "10" ++ ";") Ev.emptyStates).success = true ∧
      (Ev.evaluate ("X = " ++ "3" ++ " << " ++ "10" ++ ";") Ev.emptyStates).registerStates "X"
        = some (3 * 2 ^ (10 % 32) % 256)) ∧
     ((Ev.evaluate ("X = " ++ "3" ++ " >> " ++ "10" ++ ";") Ev.emptyStates).success = true ∧
      (Ev.evaluate ("X = " ++ "3" ++ " >> " ++ "10" ++ ";") Ev.emptyStates).registerStates "X"
        = some (3 / 2 ^ (10 % 32) % 256))) :=
  ⟨⟨by decide, by decide, by decide⟩, ⟨by decide, by decide, by decide⟩, by decide, by decide,
    c3_amended 3 10 "3" "10" Ev.emptyStates ⟨by decide, by decide, by decide⟩
      ⟨by decide, by decide, by decide⟩ (by decide) (by decide)⟩

namespace Ev

/-- The token stream of `R = e;` for a valid identifier `R` and an
arbitrary right-hand-side text `e`: the target identifier, the
assignment, then `e`'s own tokens, closed by the semicolon. -/
theorem tokens_assign (R e : String) (hR : validIdent R) :
    tokenize (R ++ " = " ++ e ++ ";")
      = Token.IDENTIFIER R :: Token.ASSIGN ::
          (tokenizeCore e.data ++ [Token.SEMICOLON, Token.EOF]) := by
  obtain ⟨c, id, hcid, hc, hid⟩ := hR
  have hdata : (R ++ " = " ++ e ++ ";").data
      = c :: (id ++ (' ' :: '=' :: ' ' :: (e.data ++ [';']))) := by
    simp only [string_data_append, List.append_assoc, hcid, List.cons_append]
    rfl
  have htrim : jsTrim (R ++ " = " ++ e ++ ";").data = (R ++ " = " ++ e ++ ";").data := by
    apply jsTrim_id
    · intro x hx
      rw [hdata] at hx
      simp only [List.head?_cons, Option.some.injEq] at hx
      subst hx
      exact identStart_not_ws c hc
    · intro x hx
      rw [hdata] at hx
      have h2 : c :: (id ++ (' ' :: '=' :: ' ' :: (e.data ++ [';'])))
          = (c :: (id ++ (' ' :: '=' :: ' ' :: e.data))) ++ [';'] := by
        simp
      rw [h2, List.getLast?_concat] at hx
      injection hx with h3
      subst h3
      decide
  have hidtok : tokenizeCore (c :: (id ++ (' ' :: '=' :: ' ' :: (e.data ++ [';']))))
      = Token.IDENTIFIER (String.mk (c :: id)) ::
          tokenizeCore (' ' :: '=' :: ' ' :: (e.data ++ [';'])) :=
    tokenizeCore_ident c id _ hc hid
      (by intro x hx; simp only [List.head?_cons, Option.some.injEq] at hx; subst hx; decide)
  have hmk : String.mk (c :: id) = R := by rw [← hcid]
  rw [tokenize, htrim, hdata, hidtok, hmk, tokenizeCore_ws ' ' _ (by decide),
    tokenizeCore_assign, tokenizeCore_ws ' ' _ (by decide), tokenizeCore_append_semi]
  simp

end Ev

/-- C10: the assignment target is never validated against the symbol
table: for every valid identifier `R` (resolvable or not) and every
right-hand-side text `e` whose token stream parses to a value `v`
consuming everything up to the statement's semicolon, `evaluate "R = e;"`
succeeds and sets `registerStates R` to the value of `e`. -/
theorem c10 (R e : String) (hR : Ev.validIdent R) (v : Nat) (init : Ev.RegState)
    (hv : Ev.parseExpressionE (Ev.tokenizeCore e.data ++ [Ev.Token.SEMICOLON, Ev.Token.EOF])
        = .ok (v, [Ev.Token.SEMICOLON, Ev.Token.EOF])) :
    (Ev.evaluate (R ++ " = " ++ e ++ ";") init).success = true ∧
    (Ev.evaluate (R ++ " = " ++ e ++ ";") init).registerStates R = some v := by
  have hbound : ∀ t ∈ Ev.tokenizeCore e.data ++ [Ev.Token.SEMICOLON, Ev.Token.EOF],
      Ev.tokBound t := by
    intro t ht
    rcases List.mem_append.mp ht with h | h
    · exact Ev.tokGo_bound _ _ t h
    · simp at h
      rcases h with rfl | rfl <;> trivial
  have hv256 : v < 256 := (Ev.parseP_ok Ev.FUEL .or _ trivial hbound v _ hv).1
  have hres := Ev.evaluate_assign_stmt _ init R v _ (Ev.tokens_assign R e hR) hv
  rw [hres]
  exact ⟨rfl, by simp [Ev.setReg, Nat.mod_eq_of_lt hv256]⟩

/-- Witness for `c10` at R = FOO (an identifier no symbol table resolves)
and e = 1: evaluation succeeds and FOO becomes 1. -/
theorem c10_witness :
    Ev.validIdent "FOO" ∧
    Ev.parseExpressionE (Ev.tokenizeCore ("1" : String).data
        ++ [Ev.Token.SEMICOLON, Ev.Token.EOF])
      = .ok (1, [Ev.Token.SEMICOLON, Ev.Token.EOF]) ∧
    (Ev.evaluate ("FOO" ++ " = " ++ "1" ++ ";") Ev.emptyStates).success = true ∧
    (Ev.evaluate ("FOO" ++ " = " ++ "1" ++ ";") Ev.emptyStates).registerStates "FOO" = some 1 := by
  have h := c10 "FOO" "1" ⟨'F', ['O', 'O'], rfl, by decide, by decide⟩ 1 Ev.emptyStates rfl
  exact ⟨⟨'F', ['O', 'O'], rfl, by decide, by decide⟩, rfl, h.1, h.2⟩

namespace Ev

/-- Tokenizing `X |= (1<<sk);` at the head of any remaining input. -/
theorem tok_c9_or (X sk : String) (k : Nat) (hX : validIdent X) (hsk : decDenotes sk k)
    (rest : List Char) :
    tokenizeCore ((X ++ " |= (1<<" ++ sk ++ ");").data ++ rest)
      = Token.IDENTIFIER X :: Token.OR_ASSIGN :: Token.LPAREN :: Token.NUMBER "1" 1 ::
          Token.LSHIFT :: Token.NUMBER sk (k % 256) :: Token.RPAREN :: Token.SEMICOLON ::
          tokenizeCore rest := by
  obtain ⟨c, id, hcid, hc, hid⟩ := hX
  obtain ⟨hne, hdig, hval⟩ := hsk
  obtain ⟨ck, dsk, hck⟩ : ∃ c2 ds, sk.data = c2 :: ds := by
    cases h : sk.data with
    | nil => exact absurd h hne
    | cons c2 ds => exact ⟨c2, ds, rfl⟩
  rw [hck] at hdig
  have hdata : (X ++ " |= (1<<" ++ sk ++ ");").data ++ rest
      = c :: (id ++ (' ' :: '|' :: '=' :: ' ' :: '(' :: '1' :: '<' :: '<' ::
          (sk.data ++ (')' :: ';' :: rest)))) := by
    simp only [string_data_append, List.append_assoc, hcid, List.cons_append]
    rfl
  have hidtok : tokenizeCore (c :: (id ++ (' ' :: '|' :: '=' :: ' ' :: '(' :: '1' :: '<' ::
        '<' :: (sk.data ++ (')' :: ';' :: rest)))))
      = Token.IDENTIFIER (String.mk (c :: id)) ::
          tokenizeCore (' ' :: '|' :: '=' :: ' ' :: '(' :: '1' :: '<' :: '<' ::
            (sk.data ++ (')' :: ';' :: rest))) :=
    tokenizeCore_ident c id _ hc hid
      (by intro x hx; simp only [List.head?_cons, Option.some.injEq] at hx; subst hx; decide)
  have hmk : String.mk (c :: id) = X := by rw [← hcid]
  have hnum1 : tokenizeCore ('1' :: '<' :: '<' :: (sk.data ++ (')' :: ';' :: rest)))
      = Token.NUMBER "1" 1 ::
          tokenizeCore ('<' :: '<' :: (sk.data ++ (')' :: ';' :: rest))) := by
    have h := tokenizeCore_num '1' [] ('<' :: '<' :: (sk.data ++ (')' :: ';' :: rest)))
        (by decide) (by intro x hx; simp at hx)
        (by intro x hx; simp only [List.head?_cons, Option.some.injEq] at hx; subst hx; decide)
    simpa using h
  have hnumk : tokenizeCore ((ck :: dsk) ++ (')' :: ';' :: rest))
      = Token.NUMBER sk (k % 256) :: tokenizeCore (')' :: ';' :: rest) := by
    rw [List.cons_append]
    have h := tokenizeCore_num ck dsk (')' :: ';' :: rest)
        (hdig ck (List.mem_cons_self _ _))
        (fun x hx => hdig x (List.mem_cons_of_mem _ hx))
        (by intro x hx; simp only [List.head?_cons, Option.some.injEq] at hx; subst hx; decide)
    rw [h]
    have hmk2 : String.mk (ck :: dsk) = sk := by rw [← hck]
    have hfold : foldDigits 10 digitVal (ck :: dsk) = k := by
      rw [← hck]
      exact hval
    rw [hmk2, hfold]
  rw [hdata, hidtok, hmk, tokenizeCore_ws ' ' _ (by decide), tokenizeCore_orassign,
    tokenizeCore_ws ' ' _ (by decide), tokenizeCore_lparen, hnum1, tokenizeCore_lshift,
    hck, hnumk, tokenizeCore_rparen, tokenizeCore_semi]

end Ev

namespace Ev

/-- Tokenizing `X ^= (1<<sk);` at the head of any remaining input. -/
theorem tok_c9_xor (X sk : String) (k : Nat) (hX : validIdent X) (hsk : decDenotes sk k)
    (rest : List Char) :
    tokenizeCore ((X ++ " ^= (1<<" ++ sk ++ ");").data ++ rest)
      = Token.IDENTIFIER X :: Token.XOR_ASSIGN :: Token.LPAREN :: Token.NUMBER "1" 1 ::
          Token.LSHIFT :: Token.NUMBER sk (k % 256) :: Token.RPAREN :: Token.SEMICOLON ::
          tokenizeCore rest := by
  obtain ⟨c, id, hcid, hc, hid⟩ := hX
  obtain ⟨hne, hdig, hval⟩ := hsk
  obtain ⟨ck, dsk, hck⟩ : ∃ c2 ds, sk.data = c2 :: ds := by
    cases h : sk.data with
    | nil => exact absurd h hne
    | cons c2 ds => exact ⟨c2, ds, rfl⟩
  rw [hck] at hdig
  have hdata : (X ++ " ^= (1<<" ++ sk ++ ");").data ++ rest
      = c :: (id ++ (' ' :: '^' :: '=' :: ' ' :: '(' :: '1' :: '<' :: '<' ::
          (sk.data ++ (')' :: ';' :: rest)))) := by
    simp only [string_data_append, List.append_assoc, hcid, List.cons_append]
    rfl
  have hidtok : tokenizeCore (c :: (id ++ (' ' :: '^' :: '=' :: ' ' :: '(' :: '1' :: '<' ::
        '<' :: (sk.data ++ (')' :: ';' :: rest)))))
      = Token.IDENTIFIER (String.mk (c :: id)) ::
          tokenizeCore (' ' :: '^' :: '=' :: ' ' :: '(' :: '1' :: '<' :: '<' ::
            (sk.data ++ (')' :: ';' :: rest))) :=
    tokenizeCore_ident c id _ hc hid
      (by intro x hx; simp only [List.head?_cons, Option.some.injEq] at hx; subst hx; decide)
  have hmk : String.mk (c :: id) = X := by rw [← hcid]
  have hnum1 : tokenizeCore ('1' :: '<' :: '<' :: (sk.data ++ (')' :: ';' :: rest)))
      = Token.NUMBER "1" 1 ::
          tokenizeCore ('<' :: '<' :: (sk.data ++ (')' :: ';' :: rest))) := by
    have h := tokenizeCore_num '1' [] ('<' :: '<' :: (sk.data ++ (')' :: ';' :: rest)))
        (by decide) (by intro x hx; simp at hx)
        (by intro x hx; simp only [List.head?_cons, Option.some.injEq] at hx; subst hx; decide)
    simpa using h
  have hnumk : tokenizeCore ((ck :: dsk) ++ (')' :: ';' :: rest))
      = Token.NUMBER sk (k % 256) :: tokenizeCore (')' :: ';' :: rest) := by
    rw [List.cons_append]
    have h := tokenizeCore_num ck dsk (')' :: ';' :: rest)
        (hdig ck (List.mem_cons_self _ _))
        (fun x hx => hdig x (List.mem_cons_of_mem _ hx))
        (by intro x hx; simp only [List.head?_cons, Option.some.injEq] at hx; subst hx; decide)
    rw [h]
    have hmk2 : String.mk (ck :: dsk) = sk := by rw [← hck]
    have hfold : foldDigits 10 digitVal (ck :: dsk) = k := by
      rw [← hck]
      exact hval
    rw [hmk2, hfold]
  rw [hdata, hidtok, hmk, tokenizeCore_ws ' ' _ (by decide), tokenizeCore_xorassign,
    tokenizeCore_ws ' ' _ (by decide), tokenizeCore_lparen, hnum1, tokenizeCore_lshift,
    hck, hnumk, tokenizeCore_rparen, tokenizeCore_semi]

end Ev

namespace Ev

/-- The token stream of a single `X |= (1<<sk);`. -/
theorem tokens_c9_or_one (X sk : String) (k : Nat) (hX : validIdent X)
    (hsk : decDenotes sk k) :
    tokenize (X ++ " |= (1<<" ++ sk ++ ");")
      = [Token.IDENTIFIER X, Token.OR_ASSIGN, Token.LPAREN, Token.NUMBER "1" 1,
          Token.LSHIFT, Token.NUMBER sk (k % 256), Token.RPAREN, Token.SEMICOLON,
          Token.EOF] := by
  obtain ⟨c, id, hcid, hc, hid⟩ := hX
  have hdata0 : (X ++ " |= (1<<" ++ sk ++ ");").data
      = c :: (id ++ (' ' :: '|' :: '=' :: ' ' :: '(' :: '1' :: '<' :: '<' ::
          (sk.data ++ [')', ';']))) := by
    simp only [string_data_append, List.append_assoc, hcid, List.cons_append]
    rfl
  have htrim : jsTrim (X ++ " |= (1<<" ++ sk ++ ");").data
      = (X ++ " |= (1<<" ++ sk ++ ");").data := by
    apply jsTrim_id
    · intro x hx
      rw [hdata0] at hx
      simp only [List.head?_cons, Option.some.injEq] at hx
      subst hx
      exact identStart_not_ws c hc
    · intro x hx
      rw [hdata0] at hx
      have h2 : c :: (id ++ (' ' :: '|' :: '=' :: ' ' :: '(' :: '1' :: '<' :: '<' ::
            (sk.data ++ [')', ';'])))
          = (c :: (id ++ (' ' :: '|' :: '=' :: ' ' :: '(' :: '1' :: '<' :: '<' ::
              (sk.data ++ [')'])))) ++ [';'] := by
        simp
      rw [h2, List.getLast?_concat] at hx
      injection hx with h3
      subst h3
      decide
  have h1 := tok_c9_or X sk k ⟨c, id, hcid, hc, hid⟩ hsk []
  rw [List.append_nil] at h1
  rw [tokenize, htrim, h1]
  rfl

/-- The token stream of `X |= (1<<sk);` written twice in sequence. -/
theorem tokens_c9_or_two (X sk : String) (k : Nat) (hX : validIdent X)
    (hsk : decDenotes sk k) :
    tokenize ((X ++ " |= (1<<" ++ sk ++ ");") ++ (X ++ " |= (1<<" ++ sk ++ ");"))
      = [Token.IDENTIFIER X, Token.OR_ASSIGN, Token.LPAREN, Token.NUMBER "1" 1,
          Token.LSHIFT, Token.NUMBER sk (k % 256), Token.RPAREN, Token.SEMICOLON,
          Token.IDENTIFIER X, Token.OR_ASSIGN, Token.LPAREN, Token.NUMBER "1" 1,
          Token.LSHIFT, Token.NUMBER sk (k % 256), Token.RPAREN, Token.SEMICOLON,
          Token.EOF] := by
  obtain ⟨c, id, hcid, hc, hid⟩ := hX
  have hdata0 : (X ++ " |= (1<<" ++ sk ++ ");").data
      = c :: (id ++ (' ' :: '|' :: '=' :: ' ' :: '(' :: '1' :: '<' :: '<' ::
          (sk.data ++ [')', ';']))) := by
    simp only [string_data_append, List.append_assoc, hcid, List.cons_append]
    rfl
  have hconc : (X ++ " |= (1<<" ++ sk ++ ");").data
      = (c :: (id ++ (' ' :: '|' :: '=' :: ' ' :: '(' :: '1' :: '<' :: '<' ::
          (sk.data ++ [')'])))) ++ [';'] := by
    rw [hdata0]
    simp
  have hdd : ((X ++ " |= (1<<" ++ sk ++ ");") ++ (X ++ " |= (1<<" ++ sk ++ ");")).data
      = (X ++ " |= (1<<" ++ sk ++ ");").data ++ (X ++ " |= (1<<" ++ sk ++ ");").data :=
    string_data_append _ _
  have htrim : jsTrim ((X ++ " |= (1<<" ++ sk ++ ");") ++ (X ++ " |= (1<<" ++ sk ++ ");")).data
      = ((X ++ " |= (1<<" ++ sk ++ ");") ++ (X ++ " |= (1<<" ++ sk ++ ");")).data := by
    apply jsTrim_id
    · intro x hx
      rw [hdd, hdata0, List.cons_append] at hx
      simp only [List.head?_cons, Option.some.injEq] at hx
      subst hx
      exact identStart_not_ws c hc
    · intro x hx
      rw [hdd] at hx
      have h2 : (X ++ " |= (1<<" ++ sk ++ ");").data ++ (X ++ " |= (1<<" ++ sk ++ ");").data
          = ((X ++ " |= (1<<" ++ sk ++ ");").data ++
              (c :: (id ++ (' ' :: '|' :: '=' :: ' ' :: '(' :: '1' :: '<' :: '<' ::
                (sk.data ++ [')']))))) ++ [';'] := by
        nth_rewrite 2 [hconc]
        rw [List.append_assoc]
      rw [h2, List.getLast?_concat] at hx
      injection hx with h3
      subst h3
      decide
  have h1 := tok_c9_or X sk k ⟨c, id, hcid, hc, hid⟩ hsk []
  rw [List.append_nil] at h1
  rw [tokenize, htrim, hdd,
    tok_c9_or X sk k ⟨c, id, hcid, hc, hid⟩ hsk (X ++ " |= (1<<" ++ sk ++ ");").data, h1]
  rfl

end Ev

namespace Ev

/-- The token stream of a single `X ^= (1<<sk);`. -/
theorem tokens_c9_xor_one (X sk : String) (k : Nat) (hX : validIdent X)
    (hsk : decDenotes sk k) :
    tokenize (X ++ " ^= (1<<" ++ sk ++ ");")
      = [Token.IDENTIFIER X, Token.XOR_ASSIGN, Token.LPAREN, Token.NUMBER "1" 1,
          Token.LSHIFT, Token.NUMBER sk (k % 256), Token.RPAREN, Token.SEMICOLON,
          Token.EOF] := by
  obtain ⟨c, id, hcid, hc, hid⟩ := hX
  have hdata0 : (X ++ " ^= (1<<" ++ sk ++ ");").data
      = c :: (id ++ (' ' :: '^' :: '=' :: ' ' :: '(' :: '1' :: '<' :: '<' ::
          (sk.data ++ [')', ';']))) := by
    simp only [string_data_append, List.append_assoc, hcid, List.cons_append]
    rfl
  have htrim : jsTrim (X ++ " ^= (1<<" ++ sk ++ ");").data
      = (X ++ " ^= (1<<" ++ sk ++ ");").data := by
    apply jsTrim_id
    · intro x hx
      rw [hdata0] at hx
      simp only [List.head?_cons, Option.some.injEq] at hx
      subst hx
      exact identStart_not_ws c hc
    · intro x hx
      rw [hdata0] at hx
      have h2 : c :: (id ++ (' ' :: '^' :: '=' :: ' ' :: '(' :: '1' :: '<' :: '<' ::
            (sk.data ++ [')', ';'])))
          = (c :: (id ++ (' ' :: '^' :: '=' :: ' ' :: '(' :: '1' :: '<' :: '<' ::
              (sk.data ++ [')'])))) ++ [';'] := by
        simp
      rw [h2, List.getLast?_concat] at hx
      injection hx with h3
      subst h3
      decide
  have h1 := tok_c9_xor X sk k ⟨c, id, hcid, hc, hid⟩ hsk []
  rw [List.append_nil] at h1
  rw [tokenize, htrim, h1]
  rfl

/-- The token stream of `X ^= (1<<sk);` written twice in sequence. -/
theorem tokens_c9_xor_two (X sk : String) (k : Nat) (hX : validIdent X)
    (hsk : decDenotes sk k) :
    tokenize ((X ++ " ^= (1<<" ++ sk ++ ");") ++ (X ++ " ^= (1<<" ++ sk ++ ");"))
      = [Token.IDENTIFIER X, Token.XOR_ASSIGN, Token.LPAREN, Token.NUMBER "1" 1,
          Token.LSHIFT, Token.NUMBER sk (k % 256), Token.RPAREN, Token.SEMICOLON,
          Token.IDENTIFIER X, Token.XOR_ASSIGN, Token.LPAREN, Token.NUMBER "1" 1,
          Token.LSHIFT, Token.NUMBER sk (k % 256), Token.RPAREN, Token.SEMICOLON,
          Token.EOF] := by
  obtain ⟨c, id, hcid, hc, hid⟩ := hX
  have hdata0 : (X ++ " ^= (1<<" ++ sk ++ ");").data
      = c :: (id ++ (' ' :: '^' :: '=' :: ' ' :: '(' :: '1' :: '<' :: '<' ::
          (sk.data ++ [')', ';']))) := by
    simp only [string_data_append, List.append_assoc, hcid, List.cons_append]
    rfl
  have hconc : (X ++ " ^= (1<<" ++ sk ++ ");").data
      = (c :: (id ++ (' ' :: '^' :: '=' :: ' ' :: '(' :: '1' :: '<' :: '<' ::
          (sk.data ++ [')'])))) ++ [';'] := by
    rw [hdata0]
    simp
  have hdd : ((X ++ " ^= (1<<" ++ sk ++ ");") ++ (X ++ " ^= (1<<" ++ sk ++ ");")).data
      = (X ++ " ^= (1<<" ++ sk ++ ");").data ++ (X ++ " ^= (1<<" ++ sk ++ ");").data :=
    string_data_append _ _
  have htrim : jsTrim ((X ++ " ^= (1<<" ++ sk ++ ");") ++ (X ++ " ^= (1<<" ++ sk ++ ");")).data
      = ((X ++ " ^= (1<<" ++ sk ++ ");") ++ (X ++ " ^= (1<<" ++ sk ++ ");")).data := by
    apply jsTrim_id
    · intro x hx
      rw [hdd, hdata0, List.cons_append] at hx
      simp only [List.head?_cons, Option.some.injEq] at hx
      subst hx
      exact identStart_not_ws c hc
    · intro x hx
      rw [hdd] at hx
      have h2 : (X ++ " ^= (1<<" ++ sk ++ ");").data ++ (X ++ " ^= (1<<" ++ sk ++ ");").data
          = ((X ++ " ^= (1<<" ++ sk ++ ");").data ++
              (c :: (id ++ (' ' :: '^' :: '=' :: ' ' :: '(' :: '1' :: '<' :: '<' ::
                (sk.data ++ [')']))))) ++ [';'] := by
        nth_rewrite 2 [hconc]
        rw [List.append_assoc]
      rw [h2, List.getLast?_concat] at hx
      injection hx with h3
      subst h3
      decide
  have h1 := tok_c9_xor X sk k ⟨c, id, hcid, hc, hid⟩ hsk []
  rw [List.append_nil] at h1
  rw [tokenize, htrim, hdd,
    tok_c9_xor X sk k ⟨c, id, hcid, hc, hid⟩ hsk (X ++ " ^= (1<<" ++ sk ++ ");").data, h1]
  rfl

end Ev

namespace Ev

theorem setReg_same (st : RegState) (r : String) (w : Nat) : setReg st r w r = some w := by
  simp [setReg]

/-- One trip around `evaluate`'s statement loop on a parsed statement. -/
theorem evalGo_stmt_step (n : Nat) (ts rest : List Token) (st : RegState) (steps : List Step)
    (R op : String) (v after : Nat)
    (hps : parseStatement ts = .ok (some ⟨R, v, op⟩, rest))
    (hap : applyOp op ((st R).getD 0) v = some after) :
    evalGo (n + 1) ts st steps
      = evalGo n rest (setReg st R after) (steps ++ [⟨R, op, v, (st R).getD 0, after⟩]) := by
  simp only [evalGo, hps, hap]

/-- The loop stops with success at EOF. -/
theorem evalGo_eof (n : Nat) (st : RegState) (steps : List Step) :
    evalGo (n + 1) [Token.EOF] st steps = ⟨true, st, none, steps⟩ := rfl

/-- Executing one `X |= (1<<sk);` statement from a state where X holds `w`. -/
theorem evalGo_c9_or_step (n : Nat) (X sk : String) (k w : Nat) (st : RegState)
    (steps : List Step) (rest : List Token) (hst : st X = some w) :
    evalGo (n + 1) (Token.IDENTIFIER X :: Token.OR_ASSIGN :: Token.LPAREN ::
        Token.NUMBER "1" 1 :: Token.LSHIFT :: Token.NUMBER sk k :: Token.RPAREN ::
        Token.SEMICOLON :: rest) st steps
      = evalGo n rest (setReg st X ((w ||| jsShl8 1 k) % 256))
          (steps ++ [⟨X, "|=", jsShl8 1 k, w, (w ||| jsShl8 1 k) % 256⟩]) := by
  have hexp : ∀ r, parseExpressionE (Token.LPAREN :: Token.NUMBER "1" 1 :: Token.LSHIFT ::
      Token.NUMBER sk k :: Token.RPAREN :: Token.SEMICOLON :: r)
      = .ok (jsShl8 1 k, Token.SEMICOLON :: r) := fun r => by
    rw [parseExpressionE, parseOr, show FUEL = 999984 + 16 from rfl]
    exact parseP_paren_lshift 999984 "1" sk 1 k r
  have hps : parseStatement (Token.IDENTIFIER X :: Token.OR_ASSIGN :: Token.LPAREN ::
      Token.NUMBER "1" 1 :: Token.LSHIFT :: Token.NUMBER sk k :: Token.RPAREN ::
      Token.SEMICOLON :: rest)
      = .ok (some ⟨X, jsShl8 1 k, "|="⟩, rest) := by
    simp only [parseStatement, peekT, List.tail_cons, parseStatementRhs, hexp, pseq]
  have hap : applyOp "|=" ((st X).getD 0) (jsShl8 1 k)
      = some ((w ||| jsShl8 1 k) % 256) := by
    rw [hst]
    rfl
  rw [evalGo_stmt_step n _ rest st steps X "|=" (jsShl8 1 k)
    ((w ||| jsShl8 1 k) % 256) hps hap]
  simp [hst]

/-- Executing one `X ^= (1<<sk);` statement from a state where X holds `w`. -/
theorem evalGo_c9_xor_step (n : Nat) (X sk : String) (k w : Nat) (st : RegState)
    (steps : List Step) (rest : List Token) (hst : st X = some w) :
    evalGo (n + 1) (Token.IDENTIFIER X :: Token.XOR_ASSIGN :: Token.LPAREN ::
        Token.NUMBER "1" 1 :: Token.LSHIFT :: Token.NUMBER sk k :: Token.RPAREN ::
        Token.SEMICOLON :: rest) st steps
      = evalGo n rest (setReg st X ((w ^^^ jsShl8 1 k) % 256))
          (steps ++ [⟨X, "^=", jsShl8 1 k, w, (w ^^^ jsShl8 1 k) % 256⟩]) := by
  have hexp : ∀ r, parseExpressionE (Token.LPAREN :: Token.NUMBER "1" 1 :: Token.LSHIFT ::
      Token.NUMBER sk k :: Token.RPAREN :: Token.SEMICOLON :: r)
      = .ok (jsShl8 1 k, Token.SEMICOLON :: r) := fun r => by
    rw [parseExpressionE, parseOr, show FUEL = 999984 + 16 from rfl]
    exact parseP_paren_lshift 999984 "1" sk 1 k r
  have hps : parseStatement (Token.IDENTIFIER X :: Token.XOR_ASSIGN :: Token.LPAREN ::
      Token.NUMBER "1" 1 :: Token.LSHIFT :: Token.NUMBER sk k :: Token.RPAREN ::
      Token.SEMICOLON :: rest)
      = .ok (some ⟨X, jsShl8 1 k, "^="⟩, rest) := by
    simp only [parseStatement, peekT, List.tail_cons, parseStatementRhs, hexp, pseq]
  have hap : applyOp "^=" ((st X).getD 0) (jsShl8 1 k)
      = some ((w ^^^ jsShl8 1 k) % 256) := by
    rw [hst]
    rfl
  rw [evalGo_stmt_step n _ rest st steps X "^=" (jsShl8 1 k)
    ((w ^^^ jsShl8 1 k) % 256) hps hap]
  simp [hst]

end Ev

/-- C9: for every valid register identifier X, bit index k in [0,7]
(written as a decimal numeral sk), and initial value v in [0,255],
evaluating `X |= (1<<sk);` twice in sequence yields the same final X as
evaluating it once, and evaluating `X ^= (1<<sk);` twice in sequence
returns X to v. -/
theorem c9 (X sk : String) (k v : Nat) (hX : Ev.validIdent X) (hsk : Ev.decDenotes sk k)
    (hk : k < 8) (hv : v < 256) (init : Ev.RegState) (hinit : init X = some v) :
    ((Ev.evaluate ((X ++ " |= (1<<" ++ sk ++ ");") ++ (X ++ " |= (1<<" ++ sk ++ ");"))
        init).registerStates X
      = (Ev.evaluate (X ++ " |= (1<<" ++ sk ++ ");") init).registerStates X) ∧
    (Ev.evaluate ((X ++ " ^= (1<<" ++ sk ++ ");") ++ (X ++ " ^= (1<<" ++ sk ++ ");"))
        init).registerStates X = some v := by
  have hkm : k % 256 = k := Nat.mod_eq_of_lt (lt_trans hk (by norm_num))
  have hmlt : jsShl8 1 k < 256 := Nat.mod_lt _ (by norm_num)
  have h100 : (100 : Nat) = 99 + 1 := rfl
  have h99 : (99 : Nat) = 98 + 1 := rfl
  have h98 : (98 : Nat) = 97 + 1 := rfl
  constructor
  · have htok2 := Ev.tokens_c9_or_two X sk k hX hsk
    rw [hkm] at htok2
    have htok1 := Ev.tokens_c9_or_one X sk k hX hsk
    rw [hkm] at htok1
    have hvm : v ||| jsShl8 1 k < 256 := by
      have h2 : v ||| jsShl8 1 k < 2 ^ 8 := Nat.or_lt_two_pow hv hmlt
      exact h2
    have hvm' : (v ||| jsShl8 1 k) % 256 = v ||| jsShl8 1 k := Nat.mod_eq_of_lt hvm
    simp only [Ev.evaluate]
    rw [htok2, htok1, h100]
    rw [Ev.evalGo_c9_or_step 99 X sk k v init []
      [Ev.Token.IDENTIFIER X, Ev.Token.OR_ASSIGN, Ev.Token.LPAREN, Ev.Token.NUMBER "1" 1,
        Ev.Token.LSHIFT, Ev.Token.NUMBER sk k, Ev.Token.RPAREN, Ev.Token.SEMICOLON,
        Ev.Token.EOF] hinit]
    rw [Ev.evalGo_c9_or_step 99 X sk k v init [] [Ev.Token.EOF] hinit]
    rw [h99]
    rw [Ev.evalGo_c9_or_step 98 X sk k ((v ||| jsShl8 1 k) % 256)
      (Ev.setReg init X ((v ||| jsShl8 1 k) % 256)) _ [Ev.Token.EOF]
      (Ev.setReg_same init X ((v ||| jsShl8 1 k) % 256))]
    rw [Ev.evalGo_eof]
    rw [h98]
    rw [Ev.evalGo_eof]
    simp only [Ev.setReg_same]
    rw [hvm', Nat.lor_assoc, Nat.or_self, hvm']
  · have htok2 := Ev.tokens_c9_xor_two X sk k hX hsk
    rw [hkm] at htok2
    have hxm : v ^^^ jsShl8 1 k < 256 := by
      have h2 : v ^^^ jsShl8 1 k < 2 ^ 8 := Nat.xor_lt_two_pow hv hmlt
      exact h2
    have hxm' : (v ^^^ jsShl8 1 k) % 256 = v ^^^ jsShl8 1 k := Nat.mod_eq_of_lt hxm
    simp only [Ev.evaluate]
    rw [htok2, h100]
    rw [Ev.evalGo_c9_xor_step 99 X sk k v init []
      [Ev.Token.IDENTIFIER X, Ev.Token.XOR_ASSIGN, Ev.Token.LPAREN, Ev.Token.NUMBER "1" 1,
        Ev.Token.LSHIFT, Ev.Token.NUMBER sk k, Ev.Token.RPAREN, Ev.Token.SEMICOLON,
        Ev.Token.EOF] hinit]
    rw [h99]
    rw [Ev.evalGo_c9_xor_step 98 X sk k ((v ^^^ jsShl8 1 k) % 256)
      (Ev.setReg init X ((v ^^^ jsShl8 1 k) % 256)) _ [Ev.Token.EOF]
      (Ev.setReg_same init X ((v ^^^ jsShl8 1 k) % 256))]
    rw [h98]
    rw [Ev.evalGo_eof]
    simp only [Ev.setReg_same]
    rw [hxm', Nat.xor_cancel_right, Nat.mod_eq_of_lt hv]

/-- Witness for `c9` at X = PORTA, k = 3, v = 5: both idempotence of the
doubled `|=` and self-inversion of the doubled `^=` hold concretely. -/
theorem c9_witness :
    Ev.validIdent "PORTA" ∧ Ev.decDenotes "3" 3 ∧ (3 : Nat) < 8 ∧ (5 : Nat) < 256 ∧
    Ev.setReg Ev.emptyStates "PORTA" 5 "PORTA" = some 5 ∧
    (((Ev.evaluate (("PORTA" ++ " |= (1<<" ++ "3" ++ ");") ++
          ("PORTA" ++ " |= (1<<" ++ "3" ++ ");"))
        (Ev.setReg Ev.emptyStates "PORTA" 5)).registerStates "PORTA"
      = (Ev.evaluate ("PORTA" ++ " |= (1<<" ++ "3" ++ ");")
          (Ev.setReg Ev.emptyStates "PORTA" 5)).registerStates "PORTA") ∧
     (Ev.evaluate (("PORTA" ++ " ^= (1<<" ++ "3" ++ ");") ++
          ("PORTA" ++ " ^= (1<<" ++ "3" ++ ");"))
        (Ev.setReg Ev.emptyStates "PORTA" 5)).registerStates "PORTA" = some 5) :=
  ⟨⟨'P', ['O', 'R', 'T', 'A'], rfl, by decide, by decide⟩,
   ⟨by decide, by decide, by decide⟩, by decide, by decide, rfl,
   c9 "PORTA" "3" 3 5 ⟨'P', ['O', 'R', 'T', 'A'], rfl, by decide, by decide⟩
     ⟨by decide, by decide, by decide⟩ (by decide) (by decide)
     (Ev.setReg Ev.emptyStates "PORTA" 5) rfl⟩
